import Mathlib

/-!
# Verification of `svd_qr` (tlapack `svd_qr.hpp`)

A shallow embedding of the routine `tlapack::svd_qr`, which computes the
singular values (and optionally accumulates singular vectors) of a real
bidiagonal matrix by the implicit QR algorithm.

Modelling choices:

* Real scalars are embedded as `ℚ`.  None of the claims settled here depends
  on rounding behaviour; they concern control flow, index arithmetic and the
  structural effect of the loop on the buffers.
* The vectors `d`, `e` are `List ℚ`; the accumulator matrices are `List (List ℚ)`
  (`u` as a list of columns, `vt` as a list of rows), mutated in place in the
  source and threaded as explicit state here.
* Every element access the source performs inside the iteration is embedded
  with `List.getElem?`, so the run of the whole routine is an `Option`: an
  out-of-bounds access makes the run return `none` (a total embedding where
  indexing returns `Option`).
* The numerical collaborators of the routine are declared in other parts of
  the repository (`tlapack/blas/lartg.hpp`, `tlapack/lapack/svd22.hpp`,
  `tlapack/lapack/singularvalues22.hpp`, `tlapack/base/utils.hpp`) and are not
  among the given source files, so they are modelled from the spec: the spec
  describes them only as pure scalar contracts ("a plane-rotation constructor
  (given two scalars, returns cosine, sine, and the resulting combined
  magnitude)", "a closed-form 2×2 bidiagonal SVD solver", "a closed-form 2×2
  singular-value-only solver", a unit round-off constant), so they are kept as
  parameters of the embedding, bundled in the structure `Collab` below.
  The simpler collaborators whose behaviour the spec fixes completely
  (plane-rotation application, row scaling, vector swap, index of maximum
  magnitude) are defined concretely.
-/

namespace TlapackSvdQr

/-- The `uplo` tag of the routine: the bidiagonal matrix is stored as upper or
lower bidiagonal. -/
inductive Uplo where
  | upper : Uplo
  | lower : Uplo
deriving DecidableEq, Repr

/-- The mutable state of a call to `svd_qr`: the diagonal `d` (length `n`),
the off-diagonal `e` (length `n-1`), the left-vector accumulator `u` (kept as
its list of columns) and the right-vector accumulator `vt` (kept as its list
of rows). -/
structure St where
  d : List ℚ
  e : List ℚ
  u : List (List ℚ)
  vt : List (List ℚ)
deriving DecidableEq, Repr

/-- Modelled from the spec: the scalar collaborators of `svd_qr` that live in
parts of the repository outside the given sources.  `lartg f g` is the
plane-rotation constructor (returns cosine, sine, combined magnitude);
`svd22 f g h` is the closed-form 2×2 bidiagonal SVD solver (returns
`(sigmn, sigmx, csl, snl, csr, snr)`); `sing22 f g h` is the closed-form 2×2
singular-value-only solver (returns `(ssmin, ssmax)`); `eps` is the unit
round-off constant `ulp`.  The spec fixes only their interfaces, so they are
fields of a structure over which the development quantifies. -/
structure Collab where
  lartg : ℚ → ℚ → ℚ × ℚ × ℚ
  svd22 : ℚ → ℚ → ℚ → ℚ × ℚ × ℚ × ℚ × ℚ × ℚ
  sing22 : ℚ → ℚ → ℚ → ℚ × ℚ
  eps : ℚ

/-- Modelled from the spec: the BLAS plane-rotation applier `rot(x, y, c, s)`
(`tlapack/blas/rot.hpp`, not among the given sources): elementwise
`x_k ← c·x_k + s·y_k`, `y_k ← c·y_k − s·x_k`. -/
def rotPair (c s : ℚ) (x y : List ℚ) : List ℚ × List ℚ :=
  (List.zipWith (fun a b => c * a + s * b) x y,
   List.zipWith (fun a b => c * b - s * a) x y)

/-- Apply a plane rotation to columns (or rows) `i` and `j` of a matrix kept
as a list of vectors; fails if either index is out of bounds. -/
def applyRotVecs (m : List (List ℚ)) (i j : ℕ) (c s : ℚ) :
    Option (List (List ℚ)) := do
  let x ← m[i]?
  let y ← m[j]?
  let p := rotPair c s x y
  some ((m.set i p.1).set j p.2)

/-- Apply a plane rotation to a vector pair of the accumulator only when the
corresponding `want` flag is set (the source guards each `rot` call with
`if (want_u)` / `if (want_vt)`). -/
def rotIf (w : Bool) (m : List (List ℚ)) (i j : ℕ) (c s : ℚ) :
    Option (List (List ℚ)) :=
  if w then applyRotVecs m i j c s else some m

/-- Modelled from the spec: row scaling by `−1` (`scal(-one, vt1)`); total,
out-of-bounds row index leaves the matrix unchanged (the post-processing
phase applies it only to rows that exist). -/
def negRow (m : List (List ℚ)) (i : ℕ) : List (List ℚ) :=
  m.set i ((m.getD i []).map (fun x => -x))

/-- Swap entries `a` and `b` of a list (used for `std::swap(d[imax], d[i])`
and `tlapack::swap` on columns/rows); total, leaving the list unchanged when
an index is out of bounds (the post-processing phase swaps only entries that
exist). -/
def lswap {α : Type} (l : List α) (a b : ℕ) : List α :=
  match l[a]?, l[b]? with
  | some x, some y => (l.set a y).set b x
  | _, _ => l

/-- Modelled from the spec: `iamax` (`tlapack/blas/iamax.hpp`, not among the
given sources), the index-of-maximum-magnitude search: first index of an
entry of maximal absolute value. -/
def iamax : List ℚ → ℕ
  | [] => 0
  | x :: xs =>
    let j := iamax xs
    if |x| < |(xs.getD j 0)| then j + 1 else 0

/-- The deflation scan of `svd_qr` (source lines 147–154), scanning
`i = istart + k, …, istart + 1` downwards: at the first `i` with
`|e[i-1]| ≤ tol·|d[i]|` it zeroes `e[i-1]` and returns `i` as the new
`istart`; if no index fires, `e` and `istart` are returned unchanged. -/
def deflScanAux (tol : ℚ) (d e : List ℚ) (istart : ℕ) :
    ℕ → Option (List ℚ × ℕ)
  | 0 => some (e, istart)
  | k + 1 => do
    let i := istart + k + 1
    let ei ← e[i - 1]?
    let di ← d[i]?
    if |ei| ≤ tol * |di| then
      some (e.set (i - 1) 0, i)
    else
      deflScanAux tol d e istart k

/-- The deflation scan over the active block `[istart, istop)`:
`for (idx_t i = istop - 1; i > istart; --i)`. -/
def deflScan (tol : ℚ) (d e : List ℚ) (istart istop : ℕ) :
    Option (List ℚ × ℕ) :=
  deflScanAux tol d e istart (istop - 1 - istart)

/-- One step state of the zero-shift sweep: the buffers plus the carried
cosine/sine state `(cs, sn, oldcs, oldsn)`. -/
structure ZState where
  st : St
  cs : ℚ
  sn : ℚ
  oldcs : ℚ
  oldsn : ℚ
deriving DecidableEq, Repr

/-- Body of the zero-shift QR sweep (source lines 217–233), iterating
`i = istart, …, istop - 2` (the fuel is `istop - 1 - istart`). -/
def zeroSweepAux (C : Collab) (wu wv : Bool) (istart : ℕ) :
    ℕ → ℕ → ZState → Option ZState
  | 0, _, z => some z
  | fuel + 1, i, z => do
    let di ← z.st.d[i]?
    let ei ← z.st.e[i]?
    -- lartg(d[i] * cs, e[i], cs, sn, r)
    let l1 := C.lartg (di * z.cs) ei
    let cs1 := l1.1
    let sn1 := l1.2.1
    let r := l1.2.2
    -- if (i > istart) e[i - 1] = oldsn * r
    let e1 := if istart < i then z.st.e.set (i - 1) (z.oldsn * r) else z.st.e
    let di1 ← z.st.d[i + 1]?
    -- lartg(oldcs * r, d[i + 1] * sn, oldcs, oldsn, d[i])
    let l2 := C.lartg (z.oldcs * r) (di1 * sn1)
    let oldcs1 := l2.1
    let oldsn1 := l2.2.1
    let d1 := z.st.d.set i l2.2.2
    -- rotations on U (oldcs, oldsn) and Vt (cs, sn) when requested
    let u1 ← rotIf wu z.st.u i (i + 1) oldcs1 oldsn1
    let vt1 ← rotIf wv z.st.vt i (i + 1) cs1 sn1
    zeroSweepAux C wu wv istart fuel (i + 1)
      ⟨⟨d1, e1, u1, vt1⟩, cs1, sn1, oldcs1, oldsn1⟩

/-- The zero-shift QR sweep over `[istart, istop)` (source lines 212–236),
including the trailing updates `d[istop-1] = h*oldcs`, `e[istop-2] = h*oldsn`. -/
def zeroSweep (C : Collab) (wu wv : Bool) (st : St) (istart istop : ℕ) :
    Option St := do
  let z ← zeroSweepAux C wu wv istart (istop - 1 - istart) istart
    ⟨st, 1, 0, 1, 0⟩
  let dm ← z.st.d[istop - 1]?
  let h := dm * z.cs
  some { z.st with
    d := z.st.d.set (istop - 1) (h * z.oldcs),
    e := z.st.e.set (istop - 2) (h * z.oldsn) }

/-- One step state of the nonzero-shift sweep: the buffers plus the carried
scalars `f` and `g`. -/
structure NState where
  st : St
  f : ℚ
  g : ℚ
deriving DecidableEq, Repr

/-- Body of the nonzero-shift QR sweep (source lines 243–272), iterating
`i = istart, …, istop - 2`. -/
def nonzeroSweepAux (C : Collab) (wu wv : Bool) (istart istop : ℕ) :
    ℕ → ℕ → NState → Option NState
  | 0, _, z => some z
  | fuel + 1, i, z => do
    -- lartg(f, g, csr, snr, r)
    let l1 := C.lartg z.f z.g
    let csr := l1.1
    let snr := l1.2.1
    let r := l1.2.2
    -- if (i > istart) e[i - 1] = r
    let e0 := if istart < i then z.st.e.set (i - 1) r else z.st.e
    let di ← z.st.d[i]?
    let ei ← e0[i]?
    let di1 ← z.st.d[i + 1]?
    -- f = csr*d[i] + snr*e[i];  e[i] = csr*e[i] - snr*d[i]
    let f1 := csr * di + snr * ei
    let eiN := csr * ei - snr * di
    let e1 := e0.set i eiN
    -- g = snr*d[i+1];  d[i+1] = csr*d[i+1]
    let g1 := snr * di1
    let di1a := csr * di1
    -- lartg(f, g, csl, snl, r);  d[i] = r
    let l2 := C.lartg f1 g1
    let csl := l2.1
    let snl := l2.2.1
    let d1 := ((z.st.d.set (i + 1) di1a).set i l2.2.2)
    -- f = csl*e[i] + snl*d[i+1];  d[i+1] = csl*d[i+1] - snl*e[i]
    let f2 := csl * eiN + snl * di1a
    let d2 := d1.set (i + 1) (csl * di1a - snl * eiN)
    -- if (i + 1 < istop - 1) { g = snl*e[i+1]; e[i+1] = csl*e[i+1] }
    let ge ← if i + 1 < istop - 1 then do
        let ei1 ← e1[i + 1]?
        some (snl * ei1, e1.set (i + 1) (csl * ei1))
      else some (g1, e1)
    -- rotations on U (csl, snl) and Vt (csr, snr) when requested
    let u1 ← rotIf wu z.st.u i (i + 1) csl snl
    let vt1 ← rotIf wv z.st.vt i (i + 1) csr snr
    nonzeroSweepAux C wu wv istart istop fuel (i + 1)
      ⟨⟨d2, ge.2, u1, vt1⟩, f2, ge.1⟩

/-- The nonzero-shift QR sweep over `[istart, istop)` (source lines 238–274),
including the initialisation of `f` (`copysign(one, d[istart])` is modelled as
the sign of `d[istart]`, with `+1` at zero, as for IEEE `+0`) and the trailing
update `e[istop-2] = f`. -/
def nonzeroSweep (C : Collab) (wu wv : Bool) (shift : ℚ) (st : St)
    (istart istop : ℕ) : Option St := do
  let dstart ← st.d[istart]?
  let g0 ← st.e[istart]?
  let f0 := (|dstart| - shift) *
    ((if dstart < 0 then (-1 : ℚ) else 1) + shift / dstart)
  let z ← nonzeroSweepAux C wu wv istart istop (istop - 1 - istart) istart
    ⟨st, f0, g0⟩
  some { z.st with e := z.st.e.set (istop - 2) z.f }

/-- One pass of the body of the main loop of `svd_qr` (source lines 147–274),
for the cases that continue iterating: it performs the deflation scan and then
either the 1×1 split, the closed-form 2×2 block, or one QR sweep (zero-shift
or nonzero-shift according to the shift test at lines 199–207).  Returns the
next `(state, istart, istop)`.  The dead branch `if (false) shift = zero;`
at line 196 is omitted because its condition is literally `false`. -/
def loopStep (C : Collab) (wu wv : Bool) (st : St) (istart istop : ℕ) :
    Option (St × ℕ × ℕ) := do
  let tol := 10 * C.eps
  let sc ← deflScan tol st.d st.e istart istop
  let st1 : St := { st with e := sc.1 }
  let istart1 := sc.2
  if istart1 = istop - 1 then
    -- a singular value has split off
    some (st1, 0, istop - 1)
  else if istart1 + 1 = istop - 1 then do
    -- a 2x2 block has split off: svd22(d[istart], e[istart], d[istart+1], …)
    let da ← st1.d[istart1]?
    let ea ← st1.e[istart1]?
    let db ← st1.d[istart1 + 1]?
    let sv := C.svd22 da ea db
    let sigmn := sv.1
    let sigmx := sv.2.1
    let csl := sv.2.2.1
    let snl := sv.2.2.2.1
    let csr := sv.2.2.2.2.1
    let snr := sv.2.2.2.2.2
    let d2 := (st1.d.set istart1 sigmx).set (istart1 + 1) sigmn
    let e2 := st1.e.set istart1 0
    let u2 ← rotIf wu st1.u istart1 (istart1 + 1) csl snl
    let vt2 ← rotIf wv st1.vt istart1 (istart1 + 1) csr snr
    some (⟨d2, e2, u2, vt2⟩, 0, istop - 2)
  else do
    -- compute the shift from the "2-by-2 block at end of matrix":
    -- singularvalues22(d[istop - 1], e[istop - 1], d[istop], shift, temp)
    let dm1 ← st1.d[istop - 1]?
    let em1 ← st1.e[istop - 1]?
    let dm ← st1.d[istop]?
    let dstart ← st1.d[istart1]?
    let sstart := |dstart|
    let ssmin := (C.sing22 dm1 em1 dm).1
    -- if (sstart > zero and pow(shift / sstart, 2) < eps) shift = zero
    let shift := if 0 < sstart ∧ (ssmin / sstart) ^ 2 < C.eps then 0 else ssmin
    if shift = 0 then do
      let st2 ← zeroSweep C wu wv st1 istart1 istop
      some (st2, istart1, istop)
    else do
      let st2 ← nonzeroSweep C wu wv shift st1 istart1 istop
      some (st2, istart1, istop)

/-- Exit value of the main loop: `.inl (code, st)` is the early return at
`iter == itmax` (source lines 137–140, returning the current `istop`);
`.inr st` is the `break` at `istop <= 1` (lines 142–145), after which the
routine post-processes and returns `0`. -/
abbrev LoopOut := Sum (ℕ × St) St

/-- The main loop of `svd_qr` (source lines 136–275).  The fuel counts the
remaining iterations until `iter == itmax`; the budget check precedes the
convergence check exactly as in the source. -/
def mainLoop (C : Collab) (wu wv : Bool) :
    ℕ → St → ℕ → ℕ → Option LoopOut
  | 0, st, _, istop => some (.inl (istop, st))
  | fuel + 1, st, istart, istop =>
    if istop ≤ 1 then some (.inr st)
    else do
      let nxt ← loopStep C wu wv st istart istop
      mainLoop C wu wv fuel nxt.1 nxt.2.1 nxt.2.2

/-- The sign-normalisation pass (source lines 278–286): for `i` in the given
range, if `d[i] < 0` flip it and, when `want_vt` is set, negate row `i` of
`Vt`.  Iterates `i, i+1, …` for `fuel` steps. -/
def signPass (wv : Bool) : ℕ → ℕ → St → St
  | 0, _, st => st
  | fuel + 1, i, st =>
    let di := st.d.getD i 0
    let st1 : St :=
      if di < 0 then
        { st with d := st.d.set i (-di),
                  vt := if wv then negRow st.vt i else st.vt }
      else st
    signPass wv fuel (i + 1) st1

/-- One step of the selection sort (source lines 289–306): find the index of
the entry of maximal magnitude in `d[i..n)` and swap it into position `i`,
swapping the matching `U` columns and `Vt` rows in lock-step. -/
def selStep (wu wv : Bool) (st : St) (i : ℕ) : St :=
  let d2 := st.d.drop i
  let imax := i + iamax d2
  if imax ≠ i then
    { d := lswap st.d imax i,
      e := st.e,
      u := if wu then lswap st.u imax i else st.u,
      vt := if wv then lswap st.vt imax i else st.vt }
  else st

/-- The selection-sort loop (source lines 289–306), `i = 0, …, n - 2`. -/
def selLoop (wu wv : Bool) : ℕ → ℕ → St → St
  | 0, _, st => st
  | fuel + 1, i, st => selLoop wu wv fuel (i + 1) (selStep wu wv st i)

/-- The post-processing phase of `svd_qr` (source lines 277–306): the sign
pass over all of `d`, then the descending selection sort. -/
def postProcess (wu wv : Bool) (st : St) : St :=
  selLoop wu wv (st.d.length - 1) 0 (signPass wv st.d.length 0 st)

/-- The lower-to-upper normalisation loop (source lines 111–127),
`i = 0, …, n - 2`. -/
def normAux (C : Collab) (wu : Bool) : ℕ → ℕ → St → Option St
  | 0, _, st => some st
  | fuel + 1, i, st => do
    let di ← st.d[i]?
    let ei ← st.e[i]?
    let l := C.lartg di ei
    let c := l.1
    let s := l.2.1
    let di1 ← st.d[i + 1]?
    -- d[i] = r;  e[i] = s * d[i+1];  d[i+1] = c * d[i+1]
    let st1 : St := { st with
      d := (st.d.set i l.2.2).set (i + 1) (c * di1),
      e := st.e.set i (s * di1) }
    let u1 ← rotIf wu st1.u i (i + 1) c s
    normAux C wu fuel (i + 1) { st1 with u := u1 }

/-- The lower-to-upper normaliser (source lines 109–127). -/
def normalizeLower (C : Collab) (wu : Bool) (st : St) : Option St :=
  normAux C wu (st.d.length - 1) 0 st

/-- The conditional normalisation step at the top of `svd_qr`: applied only
when the matrix is tagged lower bidiagonal. -/
def normStep (C : Collab) (uplo : Uplo) (wu : Bool) (st : St) : Option St :=
  if uplo = Uplo.lower then normalizeLower C wu st else some st

/-- The routine `tlapack::svd_qr` (source lines 85–309) over the shallow
embedding: quick return at `n = 0`, lower-to-upper normalisation, the main
loop with iteration budget `itmax = 30 * n`, and — only when the loop exits
through the convergence `break` — the post-processing phase.  The result is
the returned status code together with the final state; `none` means the run
performed an out-of-bounds access. -/
def svd_qr (C : Collab) (uplo : Uplo) (want_u want_vt : Bool) (st : St) :
    Option (ℕ × St) :=
  let n := st.d.length
  if n = 0 then some (0, st)
  else do
    let st1 ← normStep C uplo want_u st
    match ← mainLoop C want_u want_vt (30 * n) st1 0 n with
    | .inl cst => some (cst.1, cst.2)
    | .inr st2 => some (0, postProcess want_u want_vt st2)

/-- The deflation-scan trigger condition at index `i` (source line 149):
`|e[i-1]| ≤ tol·|d[i]|`, read through total `getD` access. -/
def trig (tol : ℚ) (d e : List ℚ) (i : ℕ) : Prop :=
  |e.getD (i - 1) 0| ≤ tol * |d.getD i 0|

/-- Both entries inspected by the deflation scan at index `i` are in bounds. -/
def scanBounds (d e : List ℚ) (i : ℕ) : Prop :=
  i - 1 < e.length ∧ i < d.length

/-- `d` is sorted in decreasing order. -/
def sortedDesc (l : List ℚ) : Prop :=
  l.Pairwise (fun a b => b ≤ a)

/-- Every off-diagonal entry at index `≥ istop - 1` is exactly zero (the part
of `e` behind the active block, all of `e` once `istop ≤ 1`). -/
def tailZero (e : List ℚ) (istop : ℕ) : Prop :=
  ∀ j, istop ≤ j + 1 → e.getD j 0 = 0

/-- The block-boundary invariant of the active block: `e[istart-1]` (if it
exists) is exactly zero. -/
def boundZero (e : List ℚ) (istart : ℕ) : Prop :=
  0 < istart → e.getD (istart - 1) 0 = 0

/-- Replace the left-vector accumulator of a state. -/
def setU (st : St) (m : List (List ℚ)) : St :=
  { st with u := m }

/-- Replace the right-vector accumulator of a state. -/
def setVt (st : St) (m : List (List ℚ)) : St :=
  { st with vt := m }

/-- A concrete instance of the spec-modelled collaborators, used to evaluate
the embedding on closed inputs: the rotation constructor returns the trivial
rotation `(1, 0)` with magnitude `f`, both 2×2 solvers return `1`s, and the
unit round-off is `10⁻⁵`. -/
def idC : Collab :=
  ⟨fun f _ => (1, 0, f), fun _ _ _ => (1, 1, 1, 1, 1, 1),
   fun _ _ _ => (1, 1), 1 / 100000⟩

/-- A second concrete instance of the spec-modelled collaborators whose
rotation constructor reports magnitude `f - 1`; under it each nonzero-shift
sweep of a size-3 block decrements `d[istart]`, `d[istart+1]` and
`e[istart]` by one, which lets closed inputs steer how many iterations the
main loop takes before deflating. -/
def decC : Collab :=
  ⟨fun f _ => (1, 0, f - 1), fun _ _ _ => (1, 1, 1, 1, 1, 1),
   fun _ _ _ => (1, 1), 1 / 100000⟩

/-!
## Theorems

First the specification of the deflation scan, then the structural lemmas on
the sweeps and the main loop, then the post-processing lemmas, and finally
the claim theorems.
-/

/-- If the deflation scan body returns, it either found no trigger (buffers
untouched) or it zeroed `e[i-1]` at the first triggering index `i` of the
scan order and returned `istart = i`; all indices scanned before it (those
above `i`) were in bounds and did not trigger. -/
theorem deflScanAux_spec (tol : ℚ) (d e : List ℚ) (istart : ℕ) (k : ℕ) :
    ∀ (e' : List ℚ) (istart' : ℕ),
      deflScanAux tol d e istart k = some (e', istart') →
      (e' = e ∧ istart' = istart ∧
        ∀ i, istart < i → i ≤ istart + k →
          scanBounds d e i ∧ ¬ trig tol d e i) ∨
      (istart < istart' ∧ istart' ≤ istart + k ∧ scanBounds d e istart' ∧
        trig tol d e istart' ∧ e' = e.set (istart' - 1) 0 ∧
        ∀ i, istart' < i → i ≤ istart + k →
          scanBounds d e i ∧ ¬ trig tol d e i) := by
  induction k with
  | zero =>
    intro e' istart' h
    simp only [deflScanAux, Option.some.injEq, Prod.mk.injEq] at h
    exact Or.inl ⟨h.1.symm, h.2.symm, fun i h1 h2 => absurd h1 (by omega)⟩
  | succ k ih =>
    intro e' istart' h
    rw [deflScanAux] at h
    rcases he : e[istart + k + 1 - 1]? with _ | ei
    · rw [he] at h; simp at h
    rcases hd : d[istart + k + 1]? with _ | di
    · rw [he, hd] at h; simp at h
    rw [he, hd] at h
    simp only [Option.bind_eq_bind, Option.some_bind] at h
    have hbound : scanBounds d e (istart + k + 1) := by
      constructor
      · have := (List.getElem?_eq_some.mp he).1; omega
      · exact (List.getElem?_eq_some.mp hd).1
    have hgetd_e : e.getD (istart + k + 1 - 1) 0 = ei := by
      rw [List.getD_eq_getElem?_getD, he]; rfl
    have hgetd_d : d.getD (istart + k + 1) 0 = di := by
      rw [List.getD_eq_getElem?_getD, hd]; rfl
    by_cases hc : |ei| ≤ tol * |di|
    · rw [if_pos hc] at h
      simp only [Option.some.injEq, Prod.mk.injEq] at h
      refine Or.inr ⟨by omega, by omega, by rwa [← h.2], ?_, by rw [← h.1, ← h.2], fun i h1 h2 => absurd h1 (by omega)⟩
      rw [← h.2]
      unfold trig
      rw [hgetd_e, hgetd_d]
      exact hc
    · rw [if_neg hc] at h
      have htrig : ¬ trig tol d e (istart + k + 1) := by
        unfold trig
        rw [hgetd_e, hgetd_d]
        exact hc
      rcases ih e' istart' h with ⟨h1, h2, h3⟩ | ⟨h1, h2, h3, h4, h5, h6⟩
      · refine Or.inl ⟨h1, h2, fun i hi1 hi2 => ?_⟩
        rcases Nat.lt_or_ge i (istart + k + 1) with hlt | hge
        · exact h3 i hi1 (by omega)
        · have : i = istart + k + 1 := by omega
          subst this; exact ⟨hbound, htrig⟩
      · refine Or.inr ⟨h1, by omega, h3, h4, h5, fun i hi1 hi2 => ?_⟩
        rcases Nat.lt_or_ge i (istart + k + 1) with hlt | hge
        · exact h6 i hi1 (by omega)
        · have : i = istart + k + 1 := by omega
          subst this; exact ⟨hbound, htrig⟩

/-- Claim C6 core, stated over `deflScan` on the block `[istart, istop)`. -/
theorem deflScan_spec (tol : ℚ) (d e : List ℚ) (istart istop : ℕ)
    (e' : List ℚ) (istart' : ℕ)
    (h : deflScan tol d e istart istop = some (e', istart'))
    (hlt : istart < istop) :
    (e' = e ∧ istart' = istart ∧
      ∀ i, istart < i → i < istop → scanBounds d e i ∧ ¬ trig tol d e i) ∨
    (istart < istart' ∧ istart' < istop ∧ scanBounds d e istart' ∧
      trig tol d e istart' ∧ e' = e.set (istart' - 1) 0 ∧
      ∀ i, istart' < i → i < istop → scanBounds d e i ∧ ¬ trig tol d e i) := by
  have := deflScanAux_spec tol d e istart (istop - 1 - istart) e' istart' h
  rcases this with ⟨h1, h2, h3⟩ | ⟨h1, h2, h3, h4, h5, h6⟩
  · exact Or.inl ⟨h1, h2, fun i hi1 hi2 => h3 i hi1 (by omega)⟩
  · exact Or.inr ⟨h1, by omega, h3, h4, h5, fun i hi1 hi2 => h6 i hi1 (by omega)⟩

/-- The zero-shift sweep body preserves the lengths of `d` and `e` and leaves
every off-diagonal entry below `istart` or at index `≥ i + fuel - 1`
unchanged. -/
theorem zeroSweepAux_frame (C : Collab) (wu wv : Bool) (istart : ℕ) :
    ∀ (fuel i : ℕ) (z z' : ZState),
      zeroSweepAux C wu wv istart fuel i z = some z' →
      z'.st.d.length = z.st.d.length ∧ z'.st.e.length = z.st.e.length ∧
      ∀ j, (j < istart ∨ i + fuel ≤ j + 1) → z'.st.e[j]? = z.st.e[j]? := by
  intro fuel
  induction fuel with
  | zero =>
    intro i z z' h
    simp only [zeroSweepAux, Option.some.injEq] at h
    subst h; exact ⟨rfl, rfl, fun j _ => rfl⟩
  | succ fuel ih =>
    intro i z z' h
    rw [zeroSweepAux] at h
    rcases hdi : z.st.d[i]? with _ | di
    · rw [hdi] at h; simp at h
    rcases hei : z.st.e[i]? with _ | ei
    · rw [hdi, hei] at h; simp at h
    rcases hdi1 : z.st.d[i + 1]? with _ | di1
    · rw [hdi, hei, hdi1] at h; simp at h
    rw [hdi, hei, hdi1] at h
    simp only [Option.bind_eq_bind, Option.some_bind] at h
    rcases hu : rotIf wu z.st.u i (i + 1)
        (C.lartg (z.oldcs * (C.lartg (di * z.cs) ei).2.2)
          (di1 * (C.lartg (di * z.cs) ei).2.1)).1
        (C.lartg (z.oldcs * (C.lartg (di * z.cs) ei).2.2)
          (di1 * (C.lartg (di * z.cs) ei).2.1)).2.1 with _ | u1
    · rw [hu] at h; simp at h
    rw [hu] at h
    simp only [Option.some_bind] at h
    rcases hv : rotIf wv z.st.vt i (i + 1) (C.lartg (di * z.cs) ei).1
        (C.lartg (di * z.cs) ei).2.1 with _ | vt1
    · rw [hv] at h; simp at h
    rw [hv] at h
    simp only [Option.some_bind] at h
    have := ih (i + 1) _ z' h
    refine ⟨?_, ?_, ?_⟩
    · rw [this.1]; simp
    · rw [this.2.1]
      by_cases hc : istart < i <;> simp [hc]
    · intro j hj
      have h2 := this.2.2 j (by omega)
      rw [h2]
      by_cases hc : istart < i
      · simp only [hc, if_true]
        rw [List.getElem?_set_ne (by omega)]
      · simp [hc]

/-- The zero-shift sweep preserves the lengths of `d` and `e` and writes no
off-diagonal entry below `istart` or at index `≥ istop - 1`. -/
theorem zeroSweep_frame (C : Collab) (wu wv : Bool) (st : St)
    (istart istop : ℕ) (st' : St)
    (h : zeroSweep C wu wv st istart istop = some st')
    (hlt : istart + 1 < istop) :
    st'.d.length = st.d.length ∧ st'.e.length = st.e.length ∧
    ∀ j, (j < istart ∨ istop - 1 ≤ j) → st'.e[j]? = st.e[j]? := by
  rw [zeroSweep] at h
  rcases hz : zeroSweepAux C wu wv istart (istop - 1 - istart) istart
      ⟨st, 1, 0, 1, 0⟩ with _ | z
  · rw [hz] at h; simp at h
  rw [hz] at h
  simp only [Option.bind_eq_bind, Option.some_bind] at h
  rcases hdm : z.st.d[istop - 1]? with _ | dm
  · rw [hdm] at h; simp at h
  rw [hdm] at h
  simp only [Option.some_bind, Option.some.injEq] at h
  have hfr := zeroSweepAux_frame C wu wv istart (istop - 1 - istart) istart
    ⟨st, 1, 0, 1, 0⟩ z hz
  subst h
  refine ⟨by simpa using hfr.1, by simpa using hfr.2.1, fun j hj => ?_⟩
  have hje : istop - 2 ≠ j := by omega
  simp only [List.getElem?_set_ne hje]
  exact hfr.2.2 j (by omega)

/-- The nonzero-shift sweep body preserves the lengths of `d` and `e` and
writes no off-diagonal entry below `istart` or at index `> istop - 2`. -/
theorem nonzeroSweepAux_frame (C : Collab) (wu wv : Bool) (istart istop : ℕ) :
    ∀ (fuel i : ℕ) (z z' : NState), istart ≤ i → i + fuel ≤ istop - 1 →
      nonzeroSweepAux C wu wv istart istop fuel i z = some z' →
      z'.st.d.length = z.st.d.length ∧ z'.st.e.length = z.st.e.length ∧
      ∀ j, (j < istart ∨ istop - 2 < j) → z'.st.e[j]? = z.st.e[j]? := by
  intro fuel
  induction fuel with
  | zero =>
    intro i z z' _ _ h
    simp only [nonzeroSweepAux, Option.some.injEq] at h
    subst h; exact ⟨rfl, rfl, fun j _ => rfl⟩
  | succ fuel ih =>
    intro i z z' hi hub h
    rw [nonzeroSweepAux] at h
    rcases hdi : z.st.d[i]? with _ | di
    · rw [hdi] at h; simp at h
    rw [hdi] at h
    set e0 := if istart < i then z.st.e.set (i - 1) (C.lartg z.f z.g).2.2
      else z.st.e with he0
    rcases hei : e0[i]? with _ | ei
    · rw [hei] at h; simp at h
    rw [hei] at h
    rcases hdi1 : z.st.d[i + 1]? with _ | di1
    · rw [hdi1] at h; simp at h
    rw [hdi1] at h
    simp only [Option.bind_eq_bind, Option.some_bind] at h
    by_cases hla : i + 1 < istop - 1
    · rw [if_pos hla] at h
      rcases hei1 : ((if istart < i then
            z.st.e.set (i - 1) (C.lartg z.f z.g).2.2
          else z.st.e).set i
            ((C.lartg z.f z.g).1 * ei - (C.lartg z.f z.g).2.1 * di))[i + 1]?
        with _ | ei1
      · rw [← he0] at hei1; rw [hei1] at h; simp at h
      rw [← he0] at hei1; rw [hei1] at h
      simp only [Option.some_bind] at h
      rcases hu : rotIf wu z.st.u i (i + 1)
          (C.lartg ((C.lartg z.f z.g).1 * di + (C.lartg z.f z.g).2.1 * ei)
            ((C.lartg z.f z.g).2.1 * di1)).1
          (C.lartg ((C.lartg z.f z.g).1 * di + (C.lartg z.f z.g).2.1 * ei)
            ((C.lartg z.f z.g).2.1 * di1)).2.1 with _ | u1
      · rw [hu] at h; simp at h
      rw [hu] at h
      simp only [Option.some_bind] at h
      rcases hv : rotIf wv z.st.vt i (i + 1) (C.lartg z.f z.g).1
          (C.lartg z.f z.g).2.1 with _ | vt1
      · rw [hv] at h; simp at h
      rw [hv] at h
      simp only [Option.some_bind] at h
      have hrec := ih (i + 1) _ z' (by omega) (by omega) h
      refine ⟨?_, ?_, ?_⟩
      · rw [hrec.1]; simp
      · rw [hrec.2.1]; simp [he0]
        by_cases hc : istart < i <;> simp [hc]
      · intro j hj
        rw [hrec.2.2 j hj]
        simp only
        rw [List.getElem?_set_ne (by omega), List.getElem?_set_ne (by omega)]
        rw [he0]
        by_cases hc : istart < i
        · simp only [hc, if_true]
          rw [List.getElem?_set_ne (by omega)]
        · simp [hc]
    · rw [if_neg hla] at h
      rcases hu : rotIf wu z.st.u i (i + 1)
          (C.lartg ((C.lartg z.f z.g).1 * di + (C.lartg z.f z.g).2.1 * ei)
            ((C.lartg z.f z.g).2.1 * di1)).1
          (C.lartg ((C.lartg z.f z.g).1 * di + (C.lartg z.f z.g).2.1 * ei)
            ((C.lartg z.f z.g).2.1 * di1)).2.1 with _ | u1
      · rw [hu] at h; simp at h
      rw [hu] at h
      simp only [Option.some_bind] at h
      rcases hv : rotIf wv z.st.vt i (i + 1) (C.lartg z.f z.g).1
          (C.lartg z.f z.g).2.1 with _ | vt1
      · rw [hv] at h; simp at h
      rw [hv] at h
      simp only [Option.some_bind] at h
      have hrec := ih (i + 1) _ z' (by omega) (by omega) h
      refine ⟨?_, ?_, ?_⟩
      · rw [hrec.1]; simp
      · rw [hrec.2.1]; simp [he0]
        by_cases hc : istart < i <;> simp [hc]
      · intro j hj
        rw [hrec.2.2 j hj]
        simp only
        rw [List.getElem?_set_ne (by omega)]
        rw [he0]
        by_cases hc : istart < i
        · simp only [hc, if_true]
          rw [List.getElem?_set_ne (by omega)]
        · simp [hc]

/-- The nonzero-shift sweep preserves the lengths of `d` and `e` and writes
no off-diagonal entry below `istart` or at index `≥ istop - 1`. -/
theorem nonzeroSweep_frame (C : Collab) (wu wv : Bool) (shift : ℚ) (st : St)
    (istart istop : ℕ) (st' : St)
    (h : nonzeroSweep C wu wv shift st istart istop = some st')
    (hlt : istart + 1 < istop) :
    st'.d.length = st.d.length ∧ st'.e.length = st.e.length ∧
    ∀ j, (j < istart ∨ istop - 1 ≤ j) → st'.e[j]? = st.e[j]? := by
  rw [nonzeroSweep] at h
  rcases hds : st.d[istart]? with _ | dstart
  · rw [hds] at h; simp at h
  rw [hds] at h
  rcases hg0 : st.e[istart]? with _ | g0
  · rw [hg0] at h; simp at h
  rw [hg0] at h
  simp only [Option.bind_eq_bind, Option.some_bind] at h
  rcases hz : nonzeroSweepAux C wu wv istart istop (istop - 1 - istart) istart
      ⟨st, (|dstart| - shift) *
        ((if dstart < 0 then (-1 : ℚ) else 1) + shift / dstart), g0⟩
    with _ | z
  · rw [hz] at h; simp at h
  rw [hz] at h
  simp only [Option.some_bind, Option.some.injEq] at h
  have hfr := nonzeroSweepAux_frame C wu wv istart istop
    (istop - 1 - istart) istart _ z le_rfl (by omega) hz
  subst h
  refine ⟨by simpa using hfr.1, by simpa using hfr.2.1, fun j hj => ?_⟩
  have hje : istop - 2 ≠ j := by omega
  simp only [List.getElem?_set_ne hje]
  exact hfr.2.2 j (by omega)

/-- Transport of `getD` along an equality of optional lookups. -/
theorem getD_congr_of_getElem? {l l' : List ℚ} {j : ℕ}
    (h : l[j]? = l'[j]?) : l.getD j 0 = l'.getD j 0 := by
  rw [List.getD_eq_getElem?_getD, List.getD_eq_getElem?_getD, h]

/-- `getD` after an in-bounds `set` at the same index. -/
theorem getD_set_self {l : List ℚ} {k : ℕ} {v : ℚ} (hk : k < l.length) :
    (l.set k v).getD k 0 = v := by
  rw [List.getD_eq_getElem?_getD, List.getElem?_set_self hk]
  rfl

/-- `getD` after a `set` at a different index. -/
theorem getD_set_ne {l : List ℚ} {k j : ℕ} {v : ℚ} (hk : k ≠ j) :
    (l.set k v).getD j 0 = l.getD j 0 := by
  rw [List.getD_eq_getElem?_getD, List.getElem?_set_ne hk,
    ← List.getD_eq_getElem?_getD]

/-- One continuing pass of the main loop preserves the lengths of the
buffers, keeps `istart ≤ istop - 1`, does not grow `istop`, and preserves the
two off-diagonal zero invariants: the tail of `e` behind the active block is
zero, and the boundary entry `e[istart-1]` is zero. -/
theorem loopStep_inv (C : Collab) (wu wv : Bool) (st : St)
    (istart istop : ℕ) (st' : St) (istart' istop' : ℕ)
    (h : loopStep C wu wv st istart istop = some (st', istart', istop'))
    (h2 : 2 ≤ istop) (hle : istart ≤ istop - 1)
    (htz : tailZero st.e istop) (hbz : boundZero st.e istart) :
    st'.d.length = st.d.length ∧ st'.e.length = st.e.length ∧
    istart' ≤ istop' - 1 ∧ istop' ≤ istop ∧
    tailZero st'.e istop' ∧ boundZero st'.e istart' := by
  rw [loopStep] at h
  rcases hsc : deflScan (10 * C.eps) st.d st.e istart istop with _ | sc
  · rw [hsc] at h; simp at h
  rw [hsc] at h
  simp only [Option.bind_eq_bind, Option.some_bind] at h
  obtain ⟨e1, istart1⟩ := sc
  have hspec := deflScan_spec (10 * C.eps) st.d st.e istart istop e1 istart1
    hsc (by omega)
  -- facts established by the scan
  have hlen1 : e1.length = st.e.length := by
    rcases hspec with ⟨rfl, -, -⟩ | ⟨-, -, -, -, rfl, -⟩
    · rfl
    · simp
  have histart1 : istart1 ≤ istop - 1 := by
    rcases hspec with ⟨-, rfl, -⟩ | ⟨-, hlt, -, -, -, -⟩
    · exact hle
    · omega
  have htz1 : tailZero e1 istop := by
    rcases hspec with ⟨rfl, -, -⟩ | ⟨hgt, hlt, hb, -, rfl, -⟩
    · exact htz
    · intro j hj
      rw [getD_set_ne (by omega)]
      exact htz j hj
  have hbz1 : boundZero e1 istart1 := by
    rcases hspec with ⟨rfl, rfl, -⟩ | ⟨hgt, hlt, hb, -, rfl, -⟩
    · exact hbz
    · intro _
      exact getD_set_self hb.1
  by_cases hc1 : istart1 = istop - 1
  · -- split case
    rw [if_pos hc1] at h
    simp only [Option.some.injEq, Prod.mk.injEq] at h
    obtain ⟨rfl, rfl, rfl⟩ := h
    refine ⟨rfl, hlen1, by omega, by omega, ?_, by intro h'; omega⟩
    intro j hj
    rcases Nat.lt_or_ge (j + 1) istop with hlt | hge
    · have hj' : j = istop - 2 := by omega
      subst hj'
      have := hbz1 (by omega)
      rwa [hc1] at this
    · exact htz1 j hge
  rw [if_neg hc1] at h
  by_cases hc2 : istart1 + 1 = istop - 1
  · -- 2x2 case
    rw [if_pos hc2] at h
    rcases hda : st.d[istart1]? with _ | da
    · rw [hda] at h; simp at h
    rw [hda] at h
    rcases hea : e1[istart1]? with _ | ea
    · rw [hea] at h; simp at h
    rw [hea] at h
    rcases hdb : st.d[istart1 + 1]? with _ | db
    · rw [hdb] at h; simp at h
    rw [hdb] at h
    simp only [Option.some_bind] at h
    rcases hu : rotIf wu st.u istart1 (istart1 + 1)
        (C.svd22 da ea db).2.2.1 (C.svd22 da ea db).2.2.2.1 with _ | u2
    · rw [hu] at h; simp at h
    rw [hu] at h
    simp only [Option.some_bind] at h
    rcases hv : rotIf wv st.vt istart1 (istart1 + 1)
        (C.svd22 da ea db).2.2.2.2.1 (C.svd22 da ea db).2.2.2.2.2
      with _ | vt2
    · rw [hv] at h; simp at h
    rw [hv] at h
    simp only [Option.some_bind, Option.some.injEq, Prod.mk.injEq] at h
    obtain ⟨rfl, rfl, rfl⟩ := h
    have hea_lt : istart1 < e1.length := (List.getElem?_eq_some.mp hea).1
    refine ⟨by simp, by simpa using hlen1, by omega, by omega, ?_,
      by intro h'; omega⟩
    intro j hj
    simp only
    rcases Nat.lt_or_ge (j + 1) istop with hlt | hge
    · -- j + 1 < istop and istop - 2 ≤ j + 1: j ∈ {istart1 - 1, istart1}
      by_cases hji : j = istart1
      · subst hji
        exact getD_set_self hea_lt
      · have hji' : j = istart1 - 1 ∧ 0 < istart1 := by omega
        rw [getD_set_ne (by omega), hji'.1]
        exact hbz1 hji'.2
    · rw [getD_set_ne (by omega)]
      exact htz1 j hge
  rw [if_neg hc2] at h
  -- sweep case
  have hlt1 : istart1 + 1 < istop - 1 := by omega
  rcases hdm1 : st.d[istop - 1]? with _ | dm1
  · rw [hdm1] at h; simp at h
  rw [hdm1] at h
  rcases hem1 : e1[istop - 1]? with _ | em1
  · rw [hem1] at h; simp at h
  rw [hem1] at h
  rcases hdm : st.d[istop]? with _ | dm
  · rw [hdm] at h; simp at h
  rw [hdm] at h
  rcases hds : st.d[istart1]? with _ | dstart
  · rw [hds] at h; simp at h
  rw [hds] at h
  simp only [Option.some_bind] at h
  by_cases hsh : (if 0 < |dstart| ∧
      ((C.sing22 dm1 em1 dm).1 / |dstart|) ^ 2 < C.eps then 0
    else (C.sing22 dm1 em1 dm).1) = 0
  · rw [if_pos hsh] at h
    rcases hz : zeroSweep C wu wv { st with e := e1 } istart1 istop with _ | st2
    · rw [hz] at h; simp at h
    rw [hz] at h
    simp only [Option.some_bind, Option.some.injEq, Prod.mk.injEq] at h
    obtain ⟨rfl, rfl, rfl⟩ := h
    have hfr := zeroSweep_frame C wu wv { st with e := e1 } istart1 istop _
      hz (by omega)
    refine ⟨by simpa using hfr.1, by rw [hfr.2.1]; simpa using hlen1,
      by omega, le_rfl, ?_, ?_⟩
    · intro j hj
      rw [getD_congr_of_getElem? (hfr.2.2 j (Or.inr (by omega)))]
      exact htz1 j hj
    · intro hpos
      rw [getD_congr_of_getElem? (hfr.2.2 (istart1 - 1) (Or.inl (by omega)))]
      exact hbz1 hpos
  · rw [if_neg hsh] at h
    rcases hz : nonzeroSweep C wu wv _ { st with e := e1 } istart1 istop
      with _ | st2
    · rw [hz] at h; simp at h
    rw [hz] at h
    simp only [Option.some_bind, Option.some.injEq, Prod.mk.injEq] at h
    obtain ⟨rfl, rfl, rfl⟩ := h
    have hfr := nonzeroSweep_frame C wu wv _ { st with e := e1 } istart1 istop
      _ hz (by omega)
    refine ⟨by simpa using hfr.1, by rw [hfr.2.1]; simpa using hlen1,
      by omega, le_rfl, ?_, ?_⟩
    · intro j hj
      rw [getD_congr_of_getElem? (hfr.2.2 j (Or.inr (by omega)))]
      exact htz1 j hj
    · intro hpos
      rw [getD_congr_of_getElem? (hfr.2.2 (istart1 - 1) (Or.inl (by omega)))]
      exact hbz1 hpos

/-- A list all of whose positions read as zero consists of zeros. -/
theorem allZero_of_getD (l : List ℚ)
    (h : ∀ j, j < l.length → l.getD j 0 = 0) : ∀ x ∈ l, x = 0 := by
  intro x hx
  obtain ⟨i, hi, rfl⟩ := List.mem_iff_getElem.mp hx
  have := h i hi
  rwa [List.getD_eq_getElem?_getD, List.getElem?_eq_getElem hi] at this

/-- If the main loop exits through the convergence `break`, the buffers have
their original lengths and the whole off-diagonal is exactly zero. -/
theorem mainLoop_inr (C : Collab) (wu wv : Bool) :
    ∀ (fuel : ℕ) (st : St) (istart istop : ℕ) (stc : St),
      mainLoop C wu wv fuel st istart istop = some (.inr stc) →
      istart ≤ istop - 1 → tailZero st.e istop → boundZero st.e istart →
      stc.d.length = st.d.length ∧ stc.e.length = st.e.length ∧
      ∀ x ∈ stc.e, x = 0 := by
  intro fuel
  induction fuel with
  | zero =>
    intro st istart istop stc h
    rw [mainLoop] at h
    simp at h
  | succ fuel ih =>
    intro st istart istop stc h hle htz hbz
    rw [mainLoop] at h
    by_cases hstop : istop ≤ 1
    · rw [if_pos hstop] at h
      simp only [Option.some.injEq, Sum.inr.injEq] at h
      subst h
      refine ⟨rfl, rfl, allZero_of_getD _ fun j _ => htz j (by omega)⟩
    · rw [if_neg hstop] at h
      simp only [Option.bind_eq_bind] at h
      rcases hls : loopStep C wu wv st istart istop with _ | nxt
      · rw [hls] at h; simp at h
      rw [hls] at h
      simp only [Option.some_bind] at h
      obtain ⟨st1, istart1, istop1⟩ := nxt
      have hinv := loopStep_inv C wu wv st istart istop st1 istart1 istop1
        hls (by omega) hle htz hbz
      have hrec := ih st1 istart1 istop1 stc h hinv.2.2.1 hinv.2.2.2.2.1
        hinv.2.2.2.2.2
      exact ⟨hrec.1.trans hinv.1, hrec.2.1.trans hinv.2.1, hrec.2.2⟩

/-- If the main loop exits through the iteration-budget check, the returned
code is the `istop` boundary at that moment; the buffers keep their lengths,
the off-diagonal behind that boundary is zero, and the boundary never grew. -/
theorem mainLoop_inl (C : Collab) (wu wv : Bool) :
    ∀ (fuel : ℕ) (st : St) (istart istop : ℕ) (code : ℕ) (stc : St),
      mainLoop C wu wv fuel st istart istop = some (.inl (code, stc)) →
      istart ≤ istop - 1 → tailZero st.e istop → boundZero st.e istart →
      stc.d.length = st.d.length ∧ stc.e.length = st.e.length ∧
      tailZero stc.e code ∧ code ≤ istop := by
  intro fuel
  induction fuel with
  | zero =>
    intro st istart istop code stc h
    rw [mainLoop] at h
    simp only [Option.some.injEq, Sum.inl.injEq, Prod.mk.injEq] at h
    obtain ⟨rfl, rfl⟩ := h
    intro _ htz _
    exact ⟨rfl, rfl, htz, le_rfl⟩
  | succ fuel ih =>
    intro st istart istop code stc h hle htz hbz
    rw [mainLoop] at h
    by_cases hstop : istop ≤ 1
    · rw [if_pos hstop] at h
      simp at h
    · rw [if_neg hstop] at h
      simp only [Option.bind_eq_bind] at h
      rcases hls : loopStep C wu wv st istart istop with _ | nxt
      · rw [hls] at h; simp at h
      rw [hls] at h
      simp only [Option.some_bind] at h
      obtain ⟨st1, istart1, istop1⟩ := nxt
      have hinv := loopStep_inv C wu wv st istart istop st1 istart1 istop1
        hls (by omega) hle htz hbz
      have hrec := ih st1 istart1 istop1 code stc h hinv.2.2.1
        hinv.2.2.2.2.1 hinv.2.2.2.2.2
      exact ⟨hrec.1.trans hinv.1, hrec.2.1.trans hinv.2.1, hrec.2.2.1,
        le_trans hrec.2.2.2 hinv.2.2.2.1⟩

/-- A nonzero `getD` read is in bounds. -/
theorem lt_length_of_getD_ne {l : List ℚ} {j : ℕ} (h : l.getD j 0 ≠ 0) :
    j < l.length := by
  by_contra hj
  exact h (List.getD_eq_default l 0 (by omega))

/-- The sign pass touches neither `e` nor `u`, preserves the length of `d`,
and replaces the entries of `d` in the processed range by their absolute
values, leaving the rest unchanged. -/
theorem signPass_spec (wv : Bool) :
    ∀ (fuel i : ℕ) (st : St),
      (signPass wv fuel i st).e = st.e ∧
      (signPass wv fuel i st).u = st.u ∧
      (signPass wv fuel i st).d.length = st.d.length ∧
      ∀ j, (signPass wv fuel i st).d.getD j 0 =
        if i ≤ j ∧ j < i + fuel then |st.d.getD j 0| else st.d.getD j 0 := by
  intro fuel
  induction fuel with
  | zero =>
    intro i st
    refine ⟨rfl, rfl, rfl, fun j => ?_⟩
    rw [if_neg (by omega)]
    rfl
  | succ fuel ih =>
    intro i st
    by_cases hneg : st.d.getD i 0 < 0
    · have hib : i < st.d.length := lt_length_of_getD_ne (ne_of_lt hneg)
      have hstep : signPass wv (fuel + 1) i st =
          signPass wv fuel (i + 1)
            (St.mk (st.d.set i (-st.d.getD i 0)) st.e st.u
              (if wv then negRow st.vt i else st.vt)) := by
        rw [signPass, if_pos hneg]
      rw [hstep]
      obtain ⟨ih1, ih2, ih3, ih4⟩ := ih (i + 1)
        (St.mk (st.d.set i (-st.d.getD i 0)) st.e st.u
          (if wv then negRow st.vt i else st.vt))
      refine ⟨ih1, ih2, ?_, fun j => ?_⟩
      · rw [ih3]
        exact List.length_set st.d i _
      · rw [ih4 j]
        by_cases hji : j = i
        · subst hji
          have h1 : ¬(j + 1 ≤ j ∧ j < j + 1 + fuel) := by omega
          have h2 : j ≤ j ∧ j < j + (fuel + 1) := by omega
          rw [if_neg h1, if_pos h2]
          exact (getD_set_self hib).trans (abs_of_neg hneg).symm
        · rw [show (St.mk (st.d.set i (-st.d.getD i 0)) st.e st.u
              (if wv then negRow st.vt i else st.vt)).d.getD j 0 =
              st.d.getD j 0 from getD_set_ne (Ne.symm hji)]
          by_cases hrange : i + 1 ≤ j ∧ j < i + 1 + fuel
          · rw [if_pos hrange, if_pos (by omega)]
          · rw [if_neg hrange, if_neg (by omega)]
    · have hstep : signPass wv (fuel + 1) i st =
          signPass wv fuel (i + 1) st := by
        rw [signPass, if_neg hneg]
      rw [hstep]
      obtain ⟨ih1, ih2, ih3, ih4⟩ := ih (i + 1) st
      refine ⟨ih1, ih2, ih3, fun j => ?_⟩
      rw [ih4 j]
      by_cases hji : j = i
      · subst hji
        have h1 : ¬(j + 1 ≤ j ∧ j < j + 1 + fuel) := by omega
        have h2 : j ≤ j ∧ j < j + (fuel + 1) := by omega
        rw [if_neg h1, if_pos h2, abs_of_nonneg (not_lt.mp hneg)]
      · by_cases hrange : i + 1 ≤ j ∧ j < i + 1 + fuel
        · rw [if_pos hrange, if_pos (by omega)]
        · rw [if_neg hrange, if_neg (by omega)]

/-- The full sign pass turns `d` into its elementwise absolute value. -/
theorem signPass_d_map (wv : Bool) (st : St) :
    (signPass wv st.d.length 0 st).d = st.d.map (fun x => |x|) := by
  obtain ⟨-, -, h3, h4⟩ := signPass_spec wv st.d.length 0 st
  apply List.ext_getElem?
  intro j
  by_cases hj : j < st.d.length
  · have hl : j < (signPass wv st.d.length 0 st).d.length := by omega
    have hr : j < (st.d.map (fun x => |x|)).length := by
      simpa using hj
    rw [List.getElem?_eq_getElem hl, List.getElem?_eq_getElem hr]
    have := h4 j
    rw [if_pos (by omega)] at this
    rw [List.getD_eq_getElem?_getD, List.getElem?_eq_getElem hl,
      List.getD_eq_getElem?_getD, List.getElem?_eq_getElem hj] at this
    simp only [Option.getD_some] at this
    simp [this]
  · rw [List.getElem?_eq_none_iff.mpr (by omega),
      List.getElem?_eq_none_iff.mpr (by simpa using hj)]

/-- `iamax` returns an index within the list (when the list is nonempty). -/
theorem iamax_lt (l : List ℚ) (h : l ≠ []) : iamax l < l.length := by
  induction l with
  | nil => exact absurd rfl h
  | cons x xs ih =>
    rw [iamax]
    by_cases hc : |x| < |xs.getD (iamax xs) 0|
    · have hxs : xs ≠ [] := by
        intro he
        subst he
        simp only [iamax, List.getD] at hc
        exact absurd hc (not_lt.mpr (abs_nonneg x))
      simp only [hc, if_true]
      have := ih hxs
      simpa using by omega
    · simp only [hc, if_false]
      simp

/-- Every entry of the list has magnitude at most that of the entry at the
index returned by `iamax`. -/
theorem iamax_max (l : List ℚ) :
    ∀ j, j < l.length → |l.getD j 0| ≤ |l.getD (iamax l) 0| := by
  induction l with
  | nil => intro j hj; simp at hj
  | cons x xs ih =>
    intro j hj
    rw [iamax]
    by_cases hc : |x| < |xs.getD (iamax xs) 0|
    · simp only [hc, if_true, List.getD_cons_succ]
      match j with
      | 0 => rw [List.getD_cons_zero]; exact hc.le
      | j + 1 =>
        rw [List.getD_cons_succ]
        exact ih j (by simpa using hj)
    · simp only [hc, if_false, List.getD_cons_zero]
      match j with
      | 0 => rw [List.getD_cons_zero]
      | j + 1 =>
        rw [List.getD_cons_succ]
        exact le_trans (ih j (by simpa using hj)) (not_lt.mp hc)

/-- Reading `lswap` pointwise (for in-bounds indices). -/
theorem getD_lswap (l : List ℚ) (a b j : ℕ)
    (ha : a < l.length) (hb : b < l.length) :
    (lswap l a b).getD j 0 =
      if j = b then l.getD a 0
      else if j = a then l.getD b 0 else l.getD j 0 := by
  unfold lswap
  rw [List.getElem?_eq_getElem ha, List.getElem?_eq_getElem hb]
  simp only
  by_cases hjb : j = b
  · subst hjb
    rw [if_pos rfl, getD_set_self (by simpa using hb),
      List.getD_eq_getElem?_getD, List.getElem?_eq_getElem ha]
    rfl
  · rw [if_neg hjb, getD_set_ne (Ne.symm hjb)]
    by_cases hja : j = a
    · subst hja
      rw [if_pos rfl, getD_set_self ha, List.getD_eq_getElem?_getD,
        List.getElem?_eq_getElem hb]
      rfl
    · rw [if_neg hja, getD_set_ne (Ne.symm hja)]

/-- Pulling the `k`-th entry of a list to the front while writing `x` into
its place is a permutation of pushing `x` onto the list. -/
theorem getSet_cons_perm (x : ℚ) :
    ∀ (xs : List ℚ) (k : ℕ) (hk : k < xs.length),
      (xs.get ⟨k, hk⟩ :: xs.set k x).Perm (x :: xs) := by
  intro xs
  induction xs with
  | nil => intro k hk; simp at hk
  | cons z t ih =>
    intro k hk
    match k with
    | 0 => exact List.Perm.swap x z t
    | k + 1 =>
      have hk' : k < t.length := by simpa using hk
      exact (List.Perm.swap z _ _).trans
        ((List.Perm.cons z (ih k hk')).trans (List.Perm.swap x z t))

/-- `lswap` at two indices is symmetric. -/
theorem lswap_comm (l : List ℚ) (a b : ℕ) : lswap l a b = lswap l b a := by
  unfold lswap
  rcases hla : l[a]? with _ | x
  · rcases hlb : l[b]? with _ | y <;> simp
  rcases hlb : l[b]? with _ | y
  · simp
  simp only
  by_cases hab : a = b
  · subst hab
    rw [hla] at hlb
    simp only [Option.some.injEq] at hlb
    rw [hlb]
  · exact List.set_comm x y l (Ne.symm hab) ▸
      List.set_comm y x l hab ▸ rfl

/-- Swapping two in-bounds entries of a list is a permutation. -/
theorem lswap_perm :
    ∀ (l : List ℚ) (a b : ℕ), a < l.length → b < l.length →
      (lswap l a b).Perm l := by
  intro l
  induction l with
  | nil => intro a b ha; simp at ha
  | cons w xs ih =>
    intro a b ha hb
    match a, b with
    | 0, 0 =>
      unfold lswap
      simp
    | 0, b + 1 =>
      have hb' : b < xs.length := by simpa using hb
      unfold lswap
      rw [List.getElem?_cons_zero, List.getElem?_cons_succ,
        List.getElem?_eq_getElem hb']
      simp only [List.set_cons_zero, List.set_cons_succ]
      exact getSet_cons_perm w xs b hb'
    | a + 1, 0 =>
      rw [lswap_comm]
      have ha' : a < xs.length := by simpa using ha
      unfold lswap
      rw [List.getElem?_cons_zero, List.getElem?_cons_succ,
        List.getElem?_eq_getElem ha']
      simp only [List.set_cons_zero, List.set_cons_succ]
      exact getSet_cons_perm w xs a ha'
    | a + 1, b + 1 =>
      have ha' : a < xs.length := by simpa using ha
      have hb' : b < xs.length := by simpa using hb
      have hred : lswap (w :: xs) (a + 1) (b + 1) = w :: lswap xs a b := by
        unfold lswap
        rw [List.getElem?_cons_succ, List.getElem?_cons_succ,
          List.getElem?_eq_getElem ha', List.getElem?_eq_getElem hb']
        simp
      rw [hred]
      exact List.Perm.cons w (ih a b ha' hb')

/-- Length of a swapped list. -/
theorem lswap_length (l : List ℚ) (a b : ℕ) :
    (lswap l a b).length = l.length := by
  unfold lswap
  rcases hla : l[a]? with _ | x
  · rcases hlb : l[b]? with _ | y <;> simp
  rcases hlb : l[b]? with _ | y
  · simp
  simp

/-- Reading entries of a dropped prefix through `getD`. -/
theorem getD_drop (l : List ℚ) (i j : ℕ) :
    (l.drop i).getD j 0 = l.getD (i + j) 0 := by
  rw [List.getD_eq_getElem?_getD, List.getD_eq_getElem?_getD,
    List.getElem?_drop]

/-- One selection step: it preserves the length of `d`, leaves `e` and the
prefix of `d` before `i` untouched, rearranges the suffix from position `i`
on, and places an entry of maximal magnitude of the suffix at position `i`. -/
theorem selStep_spec (wu wv : Bool) (st : St) (i : ℕ)
    (hi : i < st.d.length) :
    (selStep wu wv st i).d.length = st.d.length ∧
    (selStep wu wv st i).e = st.e ∧
    (selStep wu wv st i).d.Perm st.d ∧
    (∀ p, p < i → (selStep wu wv st i).d.getD p 0 = st.d.getD p 0) ∧
    (∀ q, i ≤ q → q < st.d.length → ∃ r, i ≤ r ∧ r < st.d.length ∧
      (selStep wu wv st i).d.getD q 0 = st.d.getD r 0) ∧
    (∀ q, i ≤ q → q < st.d.length →
      |(selStep wu wv st i).d.getD q 0| ≤
        |(selStep wu wv st i).d.getD i 0|) := by
  have htne : st.d.drop i ≠ [] := by
    intro he
    have := congrArg List.length he
    simp at this
    omega
  have hk : iamax (st.d.drop i) < (st.d.drop i).length := iamax_lt _ htne
  have hklen : (st.d.drop i).length = st.d.length - i := List.length_drop i _
  have himax : i + iamax (st.d.drop i) < st.d.length := by omega
  have hmax : ∀ q, i ≤ q → q < st.d.length →
      |st.d.getD q 0| ≤ |st.d.getD (i + iamax (st.d.drop i)) 0| := by
    intro q hq1 hq2
    have h1 := iamax_max (st.d.drop i) (q - i) (by omega)
    rw [getD_drop, getD_drop] at h1
    have hqi : i + (q - i) = q := by omega
    rwa [hqi] at h1
  rw [selStep]
  by_cases hne : i + iamax (st.d.drop i) ≠ i
  · rw [if_pos hne]
    refine ⟨lswap_length _ _ _, rfl, lswap_perm _ _ _ himax hi, ?_, ?_, ?_⟩
    · intro p hp
      show (lswap st.d (i + iamax (st.d.drop i)) i).getD p 0 =
        st.d.getD p 0
      rw [getD_lswap _ _ _ _ himax hi, if_neg (by omega), if_neg (by omega)]
    · intro q hq1 hq2
      show ∃ r, i ≤ r ∧ r < st.d.length ∧
        (lswap st.d (i + iamax (st.d.drop i)) i).getD q 0 = st.d.getD r 0
      rw [getD_lswap _ _ _ _ himax hi]
      by_cases hq : q = i
      · rw [if_pos hq]
        exact ⟨i + iamax (st.d.drop i), by omega, himax, rfl⟩
      · rw [if_neg hq]
        by_cases hq' : q = i + iamax (st.d.drop i)
        · rw [if_pos hq']
          exact ⟨i, le_rfl, hi, rfl⟩
        · rw [if_neg hq']
          exact ⟨q, hq1, hq2, rfl⟩
    · intro q hq1 hq2
      show |(lswap st.d (i + iamax (st.d.drop i)) i).getD q 0| ≤
        |(lswap st.d (i + iamax (st.d.drop i)) i).getD i 0|
      rw [getD_lswap _ _ _ _ himax hi, getD_lswap _ _ _ _ himax hi,
        if_pos rfl]
      by_cases hq : q = i
      · rw [if_pos hq]
      · rw [if_neg hq]
        by_cases hq' : q = i + iamax (st.d.drop i)
        · rw [if_pos hq']
          exact hmax _ le_rfl hi
        · rw [if_neg hq']
          exact hmax _ hq1 hq2
  · rw [if_neg hne]
    push_neg at hne
    refine ⟨rfl, rfl, List.Perm.refl _, fun p _ => rfl, ?_, ?_⟩
    · intro q hq1 hq2
      exact ⟨q, hq1, hq2, rfl⟩
    · intro q hq1 hq2
      have := hmax q hq1 hq2
      rwa [hne] at this

/-- The selection-sort loop: it preserves the length of `d` and `e`, permutes
`d`, preserves nonnegativity, and extends the sorted-prefix invariant by
`fuel` positions. -/
theorem selLoop_spec (wu wv : Bool) :
    ∀ (fuel i : ℕ) (st : St),
      i + fuel ≤ st.d.length - 1 →
      (∀ j, j < st.d.length → 0 ≤ st.d.getD j 0) →
      (∀ p q, p < q → q < st.d.length → p < i →
        st.d.getD q 0 ≤ st.d.getD p 0) →
      (selLoop wu wv fuel i st).d.length = st.d.length ∧
      (selLoop wu wv fuel i st).e = st.e ∧
      (selLoop wu wv fuel i st).d.Perm st.d ∧
      (∀ p q, p < q → q < st.d.length → p < i + fuel →
        (selLoop wu wv fuel i st).d.getD q 0 ≤
          (selLoop wu wv fuel i st).d.getD p 0) := by
  intro fuel
  induction fuel with
  | zero =>
    intro i st _ _ hinv
    rw [selLoop]
    exact ⟨rfl, rfl, List.Perm.refl _,
      fun p q h1 h2 h3 => hinv p q h1 h2 (by omega)⟩
  | succ fuel ih =>
    intro i st hcnt hnn hinv
    have hi : i < st.d.length := by omega
    obtain ⟨hs1, hs2, hs3, hs4, hs5, hs6⟩ := selStep_spec wu wv st i hi
    have hnn1 : ∀ j, j < (selStep wu wv st i).d.length →
        0 ≤ (selStep wu wv st i).d.getD j 0 := by
      intro j hj
      rw [hs1] at hj
      rcases Nat.lt_or_ge j i with hji | hji
      · rw [hs4 j hji]; exact hnn j hj
      · obtain ⟨r, -, hr2, hr3⟩ := hs5 j hji hj
        rw [hr3]; exact hnn r hr2
    have hinv1 : ∀ p q, p < q → q < (selStep wu wv st i).d.length →
        p < i + 1 → (selStep wu wv st i).d.getD q 0 ≤
          (selStep wu wv st i).d.getD p 0 := by
      intro p q hpq hq hp
      rw [hs1] at hq
      rcases Nat.lt_or_ge p i with hpi | hpi
      · rw [hs4 p hpi]
        rcases Nat.lt_or_ge q i with hqi | hqi
        · rw [hs4 q hqi]
          exact hinv p q hpq hq hpi
        · obtain ⟨r, hr1, hr2, hr3⟩ := hs5 q hqi hq
          rw [hr3]
          exact hinv p r (by omega) hr2 hpi
      · have hp' : p = i := by omega
        subst hp'
        have := hs6 q (by omega) hq
        rw [abs_of_nonneg (hnn1 q (by omega)),
          abs_of_nonneg (hnn1 p (by omega))] at this
        exact this
    rw [selLoop]
    obtain ⟨ihl, ihe, ihp, ihs⟩ := ih (i + 1) (selStep wu wv st i)
      (by omega) hnn1 hinv1
    refine ⟨ihl.trans hs1, ihe.trans hs2, ihp.trans hs3,
      fun p q h1 h2 h3 => ihs p q h1 (by omega) (by omega)⟩

/-- The post-processing phase: `e` is untouched, `d` becomes a permutation of
the elementwise absolute value of the incoming diagonal, sorted in
decreasing order, with every entry nonnegative. -/
theorem postProcess_spec (wu wv : Bool) (st : St) :
    (postProcess wu wv st).e = st.e ∧
    (postProcess wu wv st).d.length = st.d.length ∧
    (postProcess wu wv st).d.Perm (st.d.map (fun x => |x|)) ∧
    sortedDesc (postProcess wu wv st).d ∧
    ∀ x ∈ (postProcess wu wv st).d, 0 ≤ x := by
  obtain ⟨hp1, hp2, hp3, hp4⟩ := signPass_spec wv st.d.length 0 st
  have hmap := signPass_d_map wv st
  have hnn : ∀ j, j < (signPass wv st.d.length 0 st).d.length →
      0 ≤ (signPass wv st.d.length 0 st).d.getD j 0 := by
    intro j hj
    rw [hp4 j, if_pos (by omega)]
    exact abs_nonneg _
  obtain ⟨hl1, hl2, hl3, hl4⟩ := selLoop_spec wu wv (st.d.length - 1) 0
    (signPass wv st.d.length 0 st) (by rw [hp3]; omega) hnn
    (fun p q _ _ hp => absurd hp (by omega))
  rw [hp3] at hl1 hl4
  have he : (postProcess wu wv st).e = st.e := by
    rw [postProcess, hl2, hp1]
  have hlen : (postProcess wu wv st).d.length = st.d.length := by
    rw [postProcess, hl1]
  have hperm : (postProcess wu wv st).d.Perm (st.d.map (fun x => |x|)) := by
    rw [postProcess]
    exact hl3.trans (hmap ▸ List.Perm.refl _)
  have hnn' : ∀ x ∈ (postProcess wu wv st).d, 0 ≤ x := by
    intro x hx
    have hx' : x ∈ st.d.map (fun y => |y|) := hperm.mem_iff.mp hx
    obtain ⟨y, -, rfl⟩ := List.mem_map.mp hx'
    exact abs_nonneg y
  have hl4' : ∀ p q, p < q → q < st.d.length → p < 0 + (st.d.length - 1) →
      (postProcess wu wv st).d.getD q 0 ≤
        (postProcess wu wv st).d.getD p 0 := hl4
  refine ⟨he, hlen, hperm, ?_, hnn'⟩
  rw [sortedDesc, List.pairwise_iff_getElem]
  intro a b ha hb hab
  have hb' : b < st.d.length := by omega
  have h0 := hl4' a b hab hb' (by omega)
  rwa [List.getD_eq_getElem?_getD, List.getElem?_eq_getElem hb,
    List.getD_eq_getElem?_getD, List.getElem?_eq_getElem ha,
    Option.getD_some, Option.getD_some] at h0

/-- A disabled rotation guard is the identity. -/
theorem rotIf_false (m : List (List ℚ)) (i j : ℕ) (c s : ℚ) :
    rotIf false m i j c s = some m := rfl

/-- With `want_u = false`, the zero-shift sweep body neither reads nor
writes the left accumulator: its run on a state with `u` replaced is the run
on the original state with `u` replaced in the result. -/
theorem zeroSweepAux_mapU (C : Collab) (wv : Bool) (istart : ℕ) :
    ∀ (fuel i : ℕ) (z : ZState) (U : List (List ℚ)),
      zeroSweepAux C false wv istart fuel i
        ⟨setU z.st U, z.cs, z.sn, z.oldcs, z.oldsn⟩ =
      Option.map (fun z' : ZState =>
          ⟨setU z'.st U, z'.cs, z'.sn, z'.oldcs, z'.oldsn⟩)
        (zeroSweepAux C false wv istart fuel i z) := by
  intro fuel
  induction fuel with
  | zero =>
    intro i z U
    rw [zeroSweepAux, zeroSweepAux]
    rfl
  | succ fuel ih =>
    intro i z U
    rw [zeroSweepAux, zeroSweepAux]
    rcases hdi : z.st.d[i]? with _ | di
    · rw [show (setU z.st U).d = z.st.d from rfl, hdi]
      simp
    rw [show (setU z.st U).d = z.st.d from rfl, hdi]
    rcases hei : z.st.e[i]? with _ | ei
    · rw [show (setU z.st U).e = z.st.e from rfl, hei]
      simp
    rw [show (setU z.st U).e = z.st.e from rfl, hei]
    rcases hdi1 : z.st.d[i + 1]? with _ | di1
    · simp
    simp only [Option.bind_eq_bind, Option.some_bind, rotIf_false,
      show (setU z.st U).vt = z.st.vt from rfl]
    rcases hv : rotIf wv z.st.vt i (i + 1) (C.lartg (di * z.cs) ei).1
        (C.lartg (di * z.cs) ei).2.1 with _ | vt1
    · simp
    simp only [Option.some_bind]
    have := ih (i + 1)
      ⟨⟨z.st.d.set i
          (C.lartg (z.oldcs * (C.lartg (di * z.cs) ei).2.2)
            (di1 * (C.lartg (di * z.cs) ei).2.1)).2.2,
        if istart < i then
          z.st.e.set (i - 1) (z.oldsn * (C.lartg (di * z.cs) ei).2.2)
        else z.st.e, z.st.u, vt1⟩,
        (C.lartg (di * z.cs) ei).1, (C.lartg (di * z.cs) ei).2.1,
        (C.lartg (z.oldcs * (C.lartg (di * z.cs) ei).2.2)
          (di1 * (C.lartg (di * z.cs) ei).2.1)).1,
        (C.lartg (z.oldcs * (C.lartg (di * z.cs) ei).2.2)
          (di1 * (C.lartg (di * z.cs) ei).2.1)).2.1⟩ U
    exact this

/-- With `want_u = false`, the nonzero-shift sweep body neither reads nor
writes the left accumulator. -/
theorem nonzeroSweepAux_mapU (C : Collab) (wv : Bool) (istart istop : ℕ) :
    ∀ (fuel i : ℕ) (d e : List ℚ) (u1 u2 : List (List ℚ))
      (vt : List (List ℚ)) (f g : ℚ),
      nonzeroSweepAux C false wv istart istop fuel i ⟨⟨d, e, u1, vt⟩, f, g⟩ =
      Option.map (fun z' : NState => ⟨⟨z'.st.d, z'.st.e, u1, z'.st.vt⟩, z'.f, z'.g⟩)
        (nonzeroSweepAux C false wv istart istop fuel i
          ⟨⟨d, e, u2, vt⟩, f, g⟩) := by
  intro fuel
  induction fuel with
  | zero =>
    intro i d e u1 u2 vt f g
    rw [nonzeroSweepAux, nonzeroSweepAux]
    rfl
  | succ fuel ih =>
    intro i d e u1 u2 vt f g
    rw [nonzeroSweepAux, nonzeroSweepAux]
    rcases hdi : d[i]? with _ | di
    · simp
    rcases hei : (if istart < i then
        e.set (i - 1) (C.lartg f g).2.2 else e)[i]? with _ | ei
    · simp
    rcases hdi1 : d[i + 1]? with _ | di1
    · simp
    simp only [Option.bind_eq_bind, Option.some_bind]
    by_cases hla : i + 1 < istop - 1
    · rw [if_pos hla, if_pos hla]
      rcases hei1 : ((if istart < i then
          e.set (i - 1) (C.lartg f g).2.2 else e).set i
            ((C.lartg f g).1 * ei - (C.lartg f g).2.1 * di))[i + 1]?
        with _ | ei1
      · simp
      simp only [Option.some_bind, rotIf_false]
      rcases hv : rotIf wv vt i (i + 1) (C.lartg f g).1
          (C.lartg f g).2.1 with _ | vt1
      · simp
      simp only [Option.some_bind]
      exact ih (i + 1) _ _ _ _ _ _ _
    · rw [if_neg hla, if_neg hla]
      simp only [Option.some_bind, rotIf_false]
      rcases hv : rotIf wv vt i (i + 1) (C.lartg f g).1
          (C.lartg f g).2.1 with _ | vt1
      · simp
      simp only [Option.some_bind]
      exact ih (i + 1) _ _ _ _ _ _ _

/-- With `want_u = false`, the zero-shift sweep neither reads nor writes the
left accumulator. -/
theorem zeroSweep_mapU (C : Collab) (wv : Bool) (st : St) (istart istop : ℕ)
    (U : List (List ℚ)) :
    zeroSweep C false wv (setU st U) istart istop =
      Option.map (fun s => setU s U) (zeroSweep C false wv st istart istop) := by
  rw [zeroSweep, zeroSweep]
  have hz := zeroSweepAux_mapU C wv istart (istop - 1 - istart) istart
    ⟨st, 1, 0, 1, 0⟩ U
  rw [show (⟨setU st U, 1, 0, 1, 0⟩ : ZState) =
    ⟨setU (⟨st, 1, 0, 1, 0⟩ : ZState).st U, (⟨st, 1, 0, 1, 0⟩ : ZState).cs,
      (⟨st, 1, 0, 1, 0⟩ : ZState).sn, (⟨st, 1, 0, 1, 0⟩ : ZState).oldcs,
      (⟨st, 1, 0, 1, 0⟩ : ZState).oldsn⟩ from rfl, hz]
  rcases hres : zeroSweepAux C false wv istart (istop - 1 - istart) istart
      ⟨st, 1, 0, 1, 0⟩ with _ | z
  · simp
  simp only [Option.map_some', Option.bind_eq_bind, Option.some_bind]
  rcases hdm : z.st.d[istop - 1]? with _ | dm
  · rw [show (setU z.st U).d = z.st.d from rfl, hdm]
    simp
  rw [show (setU z.st U).d = z.st.d from rfl, hdm]
  simp only [Option.some_bind, Option.map_some']
  rfl

/-- With `want_u = false`, the nonzero-shift sweep neither reads nor writes
the left accumulator. -/
theorem nonzeroSweep_mapU (C : Collab) (wv : Bool) (shift : ℚ) (st : St)
    (istart istop : ℕ) (U : List (List ℚ)) :
    nonzeroSweep C false wv shift (setU st U) istart istop =
      Option.map (fun s => setU s U)
        (nonzeroSweep C false wv shift st istart istop) := by
  rw [nonzeroSweep, nonzeroSweep]
  rcases hds : st.d[istart]? with _ | dstart
  · rw [show (setU st U).d = st.d from rfl, hds]
    simp
  rw [show (setU st U).d = st.d from rfl, hds]
  rcases hg0 : st.e[istart]? with _ | g0
  · rw [show (setU st U).e = st.e from rfl, hg0]
    simp
  rw [show (setU st U).e = st.e from rfl, hg0]
  simp only [Option.bind_eq_bind, Option.some_bind]
  have hz := nonzeroSweepAux_mapU C wv istart istop (istop - 1 - istart)
    istart st.d st.e U st.u st.vt
    ((|dstart| - shift) *
      ((if dstart < 0 then (-1 : ℚ) else 1) + shift / dstart)) g0
  rw [show (⟨setU st U, (|dstart| - shift) *
      ((if dstart < 0 then (-1 : ℚ) else 1) + shift / dstart), g0⟩ :
        NState) =
    ⟨⟨st.d, st.e, U, st.vt⟩, (|dstart| - shift) *
      ((if dstart < 0 then (-1 : ℚ) else 1) + shift / dstart), g0⟩ from rfl,
    hz]
  rcases hres : nonzeroSweepAux C false wv istart istop (istop - 1 - istart)
      istart ⟨⟨st.d, st.e, st.u, st.vt⟩, (|dstart| - shift) *
        ((if dstart < 0 then (-1 : ℚ) else 1) + shift / dstart), g0⟩
    with _ | z
  · simp
  simp only [Option.map_some', Option.some_bind]
  rfl

/-- With `want_u = false`, one pass of the main loop neither reads nor
writes the left accumulator. -/
theorem loopStep_mapU (C : Collab) (wv : Bool) (st : St) (istart istop : ℕ)
    (U : List (List ℚ)) :
    loopStep C false wv (setU st U) istart istop =
      Option.map (fun t : St × ℕ × ℕ => (setU t.1 U, t.2))
        (loopStep C false wv st istart istop) := by
  rw [loopStep, loopStep]
  simp only [show (setU st U).d = st.d from rfl,
    show (setU st U).e = st.e from rfl]
  rcases hsc : deflScan (10 * C.eps) st.d st.e istart istop with _ | sc
  · simp
  simp only [Option.bind_eq_bind, Option.some_bind]
  obtain ⟨e1, istart1⟩ := sc
  by_cases hc1 : istart1 = istop - 1
  · rw [if_pos hc1, if_pos hc1]
    rfl
  rw [if_neg hc1, if_neg hc1]
  by_cases hc2 : istart1 + 1 = istop - 1
  · rw [if_pos hc2, if_pos hc2]
    rcases hda : st.d[istart1]? with _ | da
    · simp
    rcases hea : e1[istart1]? with _ | ea
    · simp
    rcases hdb : st.d[istart1 + 1]? with _ | db
    · simp
    simp only [Option.some_bind, rotIf_false,
      show (setU st U).vt = st.vt from rfl]
    rcases hv : rotIf wv st.vt istart1 (istart1 + 1)
        (C.svd22 da ea db).2.2.2.2.1 (C.svd22 da ea db).2.2.2.2.2
      with _ | vt2
    · simp
    simp only [Option.some_bind, Option.map_some']
    rfl
  rw [if_neg hc2, if_neg hc2]
  rcases hdm1 : st.d[istop - 1]? with _ | dm1
  · simp
  rcases hem1 : e1[istop - 1]? with _ | em1
  · simp
  rcases hdm : st.d[istop]? with _ | dm
  · simp
  rcases hds : st.d[istart1]? with _ | dstart
  · simp
  simp only [Option.some_bind]
  by_cases hsh : (if 0 < |dstart| ∧
      ((C.sing22 dm1 em1 dm).1 / |dstart|) ^ 2 < C.eps then 0
    else (C.sing22 dm1 em1 dm).1) = 0
  · rw [if_pos hsh, if_pos hsh]
    rw [show St.mk st.d e1 (setU st U).u (setU st U).vt =
      setU (St.mk st.d e1 st.u st.vt) U from rfl, zeroSweep_mapU]
    rcases hz : zeroSweep C false wv (St.mk st.d e1 st.u st.vt) istart1 istop
      with _ | st2
    · simp
    simp
  · rw [if_neg hsh, if_neg hsh]
    rw [show St.mk st.d e1 (setU st U).u (setU st U).vt =
      setU (St.mk st.d e1 st.u st.vt) U from rfl, nonzeroSweep_mapU]
    rcases hz : nonzeroSweep C false wv _ (St.mk st.d e1 st.u st.vt)
        istart1 istop
      with _ | st2
    · simp
    simp

/-- With `want_u = false`, the main loop neither reads nor writes the left
accumulator. -/
theorem mainLoop_mapU (C : Collab) (wv : Bool) :
    ∀ (fuel : ℕ) (st : St) (istart istop : ℕ) (U : List (List ℚ)),
      mainLoop C false wv fuel (setU st U) istart istop =
        Option.map (fun out : LoopOut => match out with
          | .inl cs => .inl (cs.1, setU cs.2 U)
          | .inr s => .inr (setU s U))
          (mainLoop C false wv fuel st istart istop) := by
  intro fuel
  induction fuel with
  | zero =>
    intro st istart istop U
    rw [mainLoop, mainLoop]
    rfl
  | succ fuel ih =>
    intro st istart istop U
    rw [mainLoop, mainLoop]
    by_cases hstop : istop ≤ 1
    · rw [if_pos hstop, if_pos hstop]
      rfl
    · rw [if_neg hstop, if_neg hstop]
      simp only [Option.bind_eq_bind]
      rw [loopStep_mapU]
      rcases hls : loopStep C false wv st istart istop with _ | nxt
      · simp
      simp only [Option.map_some', Option.some_bind]
      exact ih nxt.1 nxt.2.1 nxt.2.2 U

/-- The sign pass neither reads nor writes the left accumulator. -/
theorem signPass_mapU (wv : Bool) :
    ∀ (fuel i : ℕ) (st : St) (U : List (List ℚ)),
      signPass wv fuel i (setU st U) = setU (signPass wv fuel i st) U := by
  intro fuel
  induction fuel with
  | zero =>
    intro i st U
    rw [signPass, signPass]
  | succ fuel ih =>
    intro i st U
    rw [signPass, signPass]
    simp only [show (setU st U).d = st.d from rfl,
      show (setU st U).vt = st.vt from rfl]
    by_cases hneg : st.d.getD i 0 < 0
    · rw [if_pos hneg, if_pos hneg]
      exact ih (i + 1) (St.mk (st.d.set i (-st.d.getD i 0)) st.e st.u
        (if wv then negRow st.vt i else st.vt)) U
    · rw [if_neg hneg, if_neg hneg]
      exact ih (i + 1) st U

/-- With `want_u = false`, a selection step neither reads nor writes the
left accumulator. -/
theorem selStep_mapU (wv : Bool) (st : St) (i : ℕ) (U : List (List ℚ)) :
    selStep false wv (setU st U) i = setU (selStep false wv st i) U := by
  rw [selStep, selStep]
  simp only [show (setU st U).d = st.d from rfl,
    show (setU st U).e = st.e from rfl,
    show (setU st U).vt = st.vt from rfl, Bool.false_eq_true, if_false]
  by_cases hne : i + iamax (st.d.drop i) ≠ i
  · rw [if_pos hne, if_pos hne]
    rfl
  · rw [if_neg hne, if_neg hne]

/-- With `want_u = false`, the selection-sort loop neither reads nor writes
the left accumulator. -/
theorem selLoop_mapU (wv : Bool) :
    ∀ (fuel i : ℕ) (st : St) (U : List (List ℚ)),
      selLoop false wv fuel i (setU st U) = setU (selLoop false wv fuel i st) U := by
  intro fuel
  induction fuel with
  | zero =>
    intro i st U
    rw [selLoop, selLoop]
  | succ fuel ih =>
    intro i st U
    rw [selLoop, selLoop, selStep_mapU]
    exact ih (i + 1) _ U

/-- With `want_u = false`, the post-processing phase neither reads nor
writes the left accumulator. -/
theorem postProcess_mapU (wv : Bool) (st : St) (U : List (List ℚ)) :
    postProcess false wv (setU st U) = setU (postProcess false wv st) U := by
  rw [postProcess, postProcess]
  rw [show (setU st U).d = st.d from rfl, signPass_mapU, selLoop_mapU]

/-- With `want_u = false`, the lower-to-upper normaliser body neither reads
nor writes the left accumulator. -/
theorem normAux_mapU (C : Collab) :
    ∀ (fuel i : ℕ) (st : St) (U : List (List ℚ)),
      normAux C false fuel i (setU st U) =
        Option.map (fun s => setU s U) (normAux C false fuel i st) := by
  intro fuel
  induction fuel with
  | zero =>
    intro i st U
    rw [normAux, normAux]
    rfl
  | succ fuel ih =>
    intro i st U
    rw [normAux, normAux]
    rcases hdi : st.d[i]? with _ | di
    · rw [show (setU st U).d = st.d from rfl, hdi]
      simp
    rw [show (setU st U).d = st.d from rfl, hdi]
    rcases hei : st.e[i]? with _ | ei
    · rw [show (setU st U).e = st.e from rfl, hei]
      simp
    rw [show (setU st U).e = st.e from rfl, hei]
    rcases hdi1 : st.d[i + 1]? with _ | di1
    · simp
    simp only [Option.bind_eq_bind, Option.some_bind, rotIf_false]
    exact ih (i + 1)
      (St.mk ((st.d.set i (C.lartg di ei).2.2).set (i + 1)
          ((C.lartg di ei).1 * di1))
        (st.e.set i ((C.lartg di ei).2.1 * di1)) st.u st.vt) U

/-- With `want_u = false`, the lower-to-upper normaliser neither reads nor
writes the left accumulator. -/
theorem normalizeLower_mapU (C : Collab) (st : St) (U : List (List ℚ)) :
    normalizeLower C false (setU st U) =
      Option.map (fun s => setU s U) (normalizeLower C false st) := by
  rw [normalizeLower, normalizeLower,
    show (setU st U).d = st.d from rfl]
  exact normAux_mapU C (st.d.length - 1) 0 st U

/-- With `want_u = false`, the conditional normalisation step neither reads
nor writes the left accumulator. -/
theorem normStep_mapU (C : Collab) (uplo : Uplo) (st : St)
    (U : List (List ℚ)) :
    normStep C uplo false (setU st U) =
      Option.map (fun s => setU s U) (normStep C uplo false st) := by
  rw [normStep, normStep]
  by_cases hup : uplo = Uplo.lower
  · rw [if_pos hup, if_pos hup, normalizeLower_mapU]
  · rw [if_neg hup, if_neg hup]
    rfl

/-- With `want_u = false`, `svd_qr` neither reads nor writes the left
accumulator: running it on a state whose `u` is replaced by any matrix gives
the same status code and buffers, with that matrix carried through
untouched. -/
theorem svd_qr_mapU (C : Collab) (uplo : Uplo) (wv : Bool) (st : St)
    (U : List (List ℚ)) :
    svd_qr C uplo false wv (setU st U) =
      Option.map (fun p : ℕ × St => (p.1, setU p.2 U))
        (svd_qr C uplo false wv st) := by
  rw [svd_qr, svd_qr]
  simp only [show (setU st U).d = st.d from rfl]
  by_cases hn : st.d.length = 0
  · rw [if_pos hn, if_pos hn]
    rfl
  · rw [if_neg hn, if_neg hn]
    simp only [Option.bind_eq_bind]
    rw [normStep_mapU]
    rcases hns : normStep C uplo false st with _ | st1
    · simp
    simp only [Option.map_some', Option.some_bind]
    rw [mainLoop_mapU]
    rcases hml : mainLoop C false wv (30 * st.d.length) st1 0 st.d.length
      with _ | out
    · simp
    simp only [Option.map_some', Option.some_bind]
    rcases out with cs | st2
    · simp
    · simp only
      rw [postProcess_mapU]
      simp

/-- With `want_vt = false`, the zero-shift sweep body neither reads nor
writes the right accumulator. -/
theorem zeroSweepAux_mapVt (C : Collab) (wu : Bool) (istart : ℕ) :
    ∀ (fuel i : ℕ) (d e : List ℚ) (u : List (List ℚ))
      (vt1 vt2 : List (List ℚ)) (cs sn oldcs oldsn : ℚ),
      zeroSweepAux C wu false istart fuel i
        ⟨⟨d, e, u, vt1⟩, cs, sn, oldcs, oldsn⟩ =
      Option.map (fun z' : ZState =>
          ⟨⟨z'.st.d, z'.st.e, z'.st.u, vt1⟩, z'.cs, z'.sn, z'.oldcs, z'.oldsn⟩)
        (zeroSweepAux C wu false istart fuel i
          ⟨⟨d, e, u, vt2⟩, cs, sn, oldcs, oldsn⟩) := by
  intro fuel
  induction fuel with
  | zero =>
    intro i d e u vt1 vt2 cs sn oldcs oldsn
    rw [zeroSweepAux, zeroSweepAux]
    rfl
  | succ fuel ih =>
    intro i d e u vt1 vt2 cs sn oldcs oldsn
    rw [zeroSweepAux, zeroSweepAux]
    rcases hdi : d[i]? with _ | di
    · simp
    rcases hei : e[i]? with _ | ei
    · simp
    rcases hdi1 : d[i + 1]? with _ | di1
    · simp
    simp only [Option.bind_eq_bind, Option.some_bind, rotIf_false]
    rcases hu : rotIf wu u i (i + 1)
        (C.lartg (oldcs * (C.lartg (di * cs) ei).2.2)
          (di1 * (C.lartg (di * cs) ei).2.1)).1
        (C.lartg (oldcs * (C.lartg (di * cs) ei).2.2)
          (di1 * (C.lartg (di * cs) ei).2.1)).2.1 with _ | u1
    · simp
    simp only [Option.some_bind]
    exact ih (i + 1) _ _ _ _ _ _ _ _ _

/-- With `want_vt = false`, the nonzero-shift sweep body neither reads nor
writes the right accumulator. -/
theorem nonzeroSweepAux_mapVt (C : Collab) (wu : Bool) (istart istop : ℕ) :
    ∀ (fuel i : ℕ) (d e : List ℚ) (u : List (List ℚ))
      (vt1 vt2 : List (List ℚ)) (f g : ℚ),
      nonzeroSweepAux C wu false istart istop fuel i
        ⟨⟨d, e, u, vt1⟩, f, g⟩ =
      Option.map (fun z' : NState =>
          ⟨⟨z'.st.d, z'.st.e, z'.st.u, vt1⟩, z'.f, z'.g⟩)
        (nonzeroSweepAux C wu false istart istop fuel i
          ⟨⟨d, e, u, vt2⟩, f, g⟩) := by
  intro fuel
  induction fuel with
  | zero =>
    intro i d e u vt1 vt2 f g
    rw [nonzeroSweepAux, nonzeroSweepAux]
    rfl
  | succ fuel ih =>
    intro i d e u vt1 vt2 f g
    rw [nonzeroSweepAux, nonzeroSweepAux]
    rcases hdi : d[i]? with _ | di
    · simp
    rcases hei : (if istart < i then
        e.set (i - 1) (C.lartg f g).2.2 else e)[i]? with _ | ei
    · simp
    rcases hdi1 : d[i + 1]? with _ | di1
    · simp
    simp only [Option.bind_eq_bind, Option.some_bind]
    by_cases hla : i + 1 < istop - 1
    · rw [if_pos hla, if_pos hla]
      rcases hei1 : ((if istart < i then
          e.set (i - 1) (C.lartg f g).2.2 else e).set i
            ((C.lartg f g).1 * ei - (C.lartg f g).2.1 * di))[i + 1]?
        with _ | ei1
      · simp
      simp only [Option.some_bind, rotIf_false]
      rcases hu : rotIf wu u i (i + 1)
          (C.lartg ((C.lartg f g).1 * di + (C.lartg f g).2.1 * ei)
            ((C.lartg f g).2.1 * di1)).1
          (C.lartg ((C.lartg f g).1 * di + (C.lartg f g).2.1 * ei)
            ((C.lartg f g).2.1 * di1)).2.1 with _ | u1
      · simp
      simp only [Option.some_bind]
      exact ih (i + 1) _ _ _ _ _ _ _
    · rw [if_neg hla, if_neg hla]
      simp only [Option.some_bind, rotIf_false]
      rcases hu : rotIf wu u i (i + 1)
          (C.lartg ((C.lartg f g).1 * di + (C.lartg f g).2.1 * ei)
            ((C.lartg f g).2.1 * di1)).1
          (C.lartg ((C.lartg f g).1 * di + (C.lartg f g).2.1 * ei)
            ((C.lartg f g).2.1 * di1)).2.1 with _ | u1
      · simp
      simp only [Option.some_bind]
      exact ih (i + 1) _ _ _ _ _ _ _

/-- With `want_vt = false`, the zero-shift sweep neither reads nor writes
the right accumulator. -/
theorem zeroSweep_mapVt (C : Collab) (wu : Bool) (st : St)
    (istart istop : ℕ) (V : List (List ℚ)) :
    zeroSweep C wu false (setVt st V) istart istop =
      Option.map (fun s => setVt s V)
        (zeroSweep C wu false st istart istop) := by
  rw [zeroSweep, zeroSweep]
  have hz := zeroSweepAux_mapVt C wu istart (istop - 1 - istart) istart
    st.d st.e st.u V st.vt 1 0 1 0
  rw [show (⟨setVt st V, 1, 0, 1, 0⟩ : ZState) =
    ⟨⟨st.d, st.e, st.u, V⟩, 1, 0, 1, 0⟩ from rfl, hz]
  rcases hres : zeroSweepAux C wu false istart (istop - 1 - istart) istart
      ⟨⟨st.d, st.e, st.u, st.vt⟩, 1, 0, 1, 0⟩ with _ | z
  · simp
  simp only [Option.map_some', Option.bind_eq_bind, Option.some_bind]
  rcases hdm : z.st.d[istop - 1]? with _ | dm
  · simp
  simp only [Option.some_bind, Option.map_some']
  rfl

/-- With `want_vt = false`, the nonzero-shift sweep neither reads nor
writes the right accumulator. -/
theorem nonzeroSweep_mapVt (C : Collab) (wu : Bool) (shift : ℚ) (st : St)
    (istart istop : ℕ) (V : List (List ℚ)) :
    nonzeroSweep C wu false shift (setVt st V) istart istop =
      Option.map (fun s => setVt s V)
        (nonzeroSweep C wu false shift st istart istop) := by
  rw [nonzeroSweep, nonzeroSweep]
  rcases hds : st.d[istart]? with _ | dstart
  · rw [show (setVt st V).d = st.d from rfl, hds]
    simp
  rw [show (setVt st V).d = st.d from rfl, hds]
  rcases hg0 : st.e[istart]? with _ | g0
  · rw [show (setVt st V).e = st.e from rfl, hg0]
    simp
  rw [show (setVt st V).e = st.e from rfl, hg0]
  simp only [Option.bind_eq_bind, Option.some_bind]
  have hz := nonzeroSweepAux_mapVt C wu istart istop (istop - 1 - istart)
    istart st.d st.e st.u V st.vt
    ((|dstart| - shift) *
      ((if dstart < 0 then (-1 : ℚ) else 1) + shift / dstart)) g0
  rw [show (⟨setVt st V, (|dstart| - shift) *
      ((if dstart < 0 then (-1 : ℚ) else 1) + shift / dstart), g0⟩ :
        NState) =
    ⟨⟨st.d, st.e, st.u, V⟩, (|dstart| - shift) *
      ((if dstart < 0 then (-1 : ℚ) else 1) + shift / dstart), g0⟩ from rfl,
    hz]
  rcases hres : nonzeroSweepAux C wu false istart istop (istop - 1 - istart)
      istart ⟨⟨st.d, st.e, st.u, st.vt⟩, (|dstart| - shift) *
        ((if dstart < 0 then (-1 : ℚ) else 1) + shift / dstart), g0⟩
    with _ | z
  · simp
  simp only [Option.map_some', Option.some_bind]
  rfl

/-- With `want_vt = false`, one pass of the main loop neither reads nor
writes the right accumulator. -/
theorem loopStep_mapVt (C : Collab) (wu : Bool) (st : St)
    (istart istop : ℕ) (V : List (List ℚ)) :
    loopStep C wu false (setVt st V) istart istop =
      Option.map (fun t : St × ℕ × ℕ => (setVt t.1 V, t.2))
        (loopStep C wu false st istart istop) := by
  rw [loopStep, loopStep]
  simp only [show (setVt st V).d = st.d from rfl,
    show (setVt st V).e = st.e from rfl]
  rcases hsc : deflScan (10 * C.eps) st.d st.e istart istop with _ | sc
  · simp
  simp only [Option.bind_eq_bind, Option.some_bind]
  obtain ⟨e1, istart1⟩ := sc
  by_cases hc1 : istart1 = istop - 1
  · rw [if_pos hc1, if_pos hc1]
    rfl
  rw [if_neg hc1, if_neg hc1]
  by_cases hc2 : istart1 + 1 = istop - 1
  · rw [if_pos hc2, if_pos hc2]
    rcases hda : st.d[istart1]? with _ | da
    · simp
    rcases hea : e1[istart1]? with _ | ea
    · simp
    rcases hdb : st.d[istart1 + 1]? with _ | db
    · simp
    simp only [Option.some_bind, rotIf_false,
      show (setVt st V).u = st.u from rfl]
    rcases hu : rotIf wu st.u istart1 (istart1 + 1)
        (C.svd22 da ea db).2.2.1 (C.svd22 da ea db).2.2.2.1 with _ | u2
    · simp
    simp only [Option.some_bind, Option.map_some']
    rfl
  rw [if_neg hc2, if_neg hc2]
  rcases hdm1 : st.d[istop - 1]? with _ | dm1
  · simp
  rcases hem1 : e1[istop - 1]? with _ | em1
  · simp
  rcases hdm : st.d[istop]? with _ | dm
  · simp
  rcases hds : st.d[istart1]? with _ | dstart
  · simp
  simp only [Option.some_bind]
  by_cases hsh : (if 0 < |dstart| ∧
      ((C.sing22 dm1 em1 dm).1 / |dstart|) ^ 2 < C.eps then 0
    else (C.sing22 dm1 em1 dm).1) = 0
  · rw [if_pos hsh, if_pos hsh]
    rw [show St.mk st.d e1 (setVt st V).u (setVt st V).vt =
      setVt (St.mk st.d e1 st.u st.vt) V from rfl, zeroSweep_mapVt]
    rcases hz : zeroSweep C wu false (St.mk st.d e1 st.u st.vt) istart1 istop
      with _ | st2
    · simp
    simp
  · rw [if_neg hsh, if_neg hsh]
    rw [show St.mk st.d e1 (setVt st V).u (setVt st V).vt =
      setVt (St.mk st.d e1 st.u st.vt) V from rfl, nonzeroSweep_mapVt]
    rcases hz : nonzeroSweep C wu false _ (St.mk st.d e1 st.u st.vt)
        istart1 istop
      with _ | st2
    · simp
    simp

/-- With `want_vt = false`, the main loop neither reads nor writes the right
accumulator. -/
theorem mainLoop_mapVt (C : Collab) (wu : Bool) :
    ∀ (fuel : ℕ) (st : St) (istart istop : ℕ) (V : List (List ℚ)),
      mainLoop C wu false fuel (setVt st V) istart istop =
        Option.map (fun out : LoopOut => match out with
          | .inl cs => .inl (cs.1, setVt cs.2 V)
          | .inr s => .inr (setVt s V))
          (mainLoop C wu false fuel st istart istop) := by
  intro fuel
  induction fuel with
  | zero =>
    intro st istart istop V
    rw [mainLoop, mainLoop]
    rfl
  | succ fuel ih =>
    intro st istart istop V
    rw [mainLoop, mainLoop]
    by_cases hstop : istop ≤ 1
    · rw [if_pos hstop, if_pos hstop]
      rfl
    · rw [if_neg hstop, if_neg hstop]
      simp only [Option.bind_eq_bind]
      rw [loopStep_mapVt]
      rcases hls : loopStep C wu false st istart istop with _ | nxt
      · simp
      simp only [Option.map_some', Option.some_bind]
      exact ih nxt.1 nxt.2.1 nxt.2.2 V

/-- With `want_vt = false`, the sign pass neither reads nor writes the right
accumulator. -/
theorem signPass_mapVt :
    ∀ (fuel i : ℕ) (st : St) (V : List (List ℚ)),
      signPass false fuel i (setVt st V) =
        setVt (signPass false fuel i st) V := by
  intro fuel
  induction fuel with
  | zero =>
    intro i st V
    rw [signPass, signPass]
  | succ fuel ih =>
    intro i st V
    rw [signPass, signPass]
    simp only [show (setVt st V).d = st.d from rfl, Bool.false_eq_true,
      if_false]
    by_cases hneg : st.d.getD i 0 < 0
    · rw [if_pos hneg, if_pos hneg]
      exact ih (i + 1) (St.mk (st.d.set i (-st.d.getD i 0)) st.e st.u st.vt) V
    · rw [if_neg hneg, if_neg hneg]
      exact ih (i + 1) st V

/-- With `want_vt = false`, a selection step neither reads nor writes the
right accumulator. -/
theorem selStep_mapVt (wu : Bool) (st : St) (i : ℕ) (V : List (List ℚ)) :
    selStep wu false (setVt st V) i = setVt (selStep wu false st i) V := by
  rw [selStep, selStep]
  simp only [show (setVt st V).d = st.d from rfl,
    show (setVt st V).e = st.e from rfl,
    show (setVt st V).u = st.u from rfl, Bool.false_eq_true, if_false]
  by_cases hne : i + iamax (st.d.drop i) ≠ i
  · rw [if_pos hne, if_pos hne]
    rfl
  · rw [if_neg hne, if_neg hne]

/-- With `want_vt = false`, the selection-sort loop neither reads nor writes
the right accumulator. -/
theorem selLoop_mapVt (wu : Bool) :
    ∀ (fuel i : ℕ) (st : St) (V : List (List ℚ)),
      selLoop wu false fuel i (setVt st V) =
        setVt (selLoop wu false fuel i st) V := by
  intro fuel
  induction fuel with
  | zero =>
    intro i st V
    rw [selLoop, selLoop]
  | succ fuel ih =>
    intro i st V
    rw [selLoop, selLoop, selStep_mapVt]
    exact ih (i + 1) _ V

/-- With `want_vt = false`, the post-processing phase neither reads nor
writes the right accumulator. -/
theorem postProcess_mapVt (wu : Bool) (st : St) (V : List (List ℚ)) :
    postProcess wu false (setVt st V) = setVt (postProcess wu false st) V := by
  rw [postProcess, postProcess]
  rw [show (setVt st V).d = st.d from rfl, signPass_mapVt, selLoop_mapVt]

/-- The lower-to-upper normaliser body neither reads nor writes the right
accumulator (it never touches `Vt` at all). -/
theorem normAux_mapVt (C : Collab) (wu : Bool) :
    ∀ (fuel i : ℕ) (st : St) (V : List (List ℚ)),
      normAux C wu fuel i (setVt st V) =
        Option.map (fun s => setVt s V) (normAux C wu fuel i st) := by
  intro fuel
  induction fuel with
  | zero =>
    intro i st V
    rw [normAux, normAux]
    rfl
  | succ fuel ih =>
    intro i st V
    rw [normAux, normAux]
    rcases hdi : st.d[i]? with _ | di
    · rw [show (setVt st V).d = st.d from rfl, hdi]
      simp
    rw [show (setVt st V).d = st.d from rfl, hdi]
    rcases hei : st.e[i]? with _ | ei
    · rw [show (setVt st V).e = st.e from rfl, hei]
      simp
    rw [show (setVt st V).e = st.e from rfl, hei]
    rcases hdi1 : st.d[i + 1]? with _ | di1
    · simp
    simp only [Option.bind_eq_bind, Option.some_bind,
      show (setVt st V).u = st.u from rfl]
    rcases hu : rotIf wu st.u i (i + 1) (C.lartg di ei).1
        (C.lartg di ei).2.1 with _ | u1
    · simp
    simp only [Option.some_bind]
    exact ih (i + 1)
      (St.mk ((st.d.set i (C.lartg di ei).2.2).set (i + 1)
          ((C.lartg di ei).1 * di1))
        (st.e.set i ((C.lartg di ei).2.1 * di1)) u1 st.vt) V

/-- The lower-to-upper normaliser neither reads nor writes the right
accumulator. -/
theorem normalizeLower_mapVt (C : Collab) (wu : Bool) (st : St)
    (V : List (List ℚ)) :
    normalizeLower C wu (setVt st V) =
      Option.map (fun s => setVt s V) (normalizeLower C wu st) := by
  rw [normalizeLower, normalizeLower,
    show (setVt st V).d = st.d from rfl]
  exact normAux_mapVt C wu (st.d.length - 1) 0 st V

/-- The conditional normalisation step neither reads nor writes the right
accumulator. -/
theorem normStep_mapVt (C : Collab) (uplo : Uplo) (wu : Bool) (st : St)
    (V : List (List ℚ)) :
    normStep C uplo wu (setVt st V) =
      Option.map (fun s => setVt s V) (normStep C uplo wu st) := by
  rw [normStep, normStep]
  by_cases hup : uplo = Uplo.lower
  · rw [if_pos hup, if_pos hup, normalizeLower_mapVt]
  · rw [if_neg hup, if_neg hup]
    rfl

/-- With `want_vt = false`, `svd_qr` neither reads nor writes the right
accumulator. -/
theorem svd_qr_mapVt (C : Collab) (uplo : Uplo) (wu : Bool) (st : St)
    (V : List (List ℚ)) :
    svd_qr C uplo wu false (setVt st V) =
      Option.map (fun p : ℕ × St => (p.1, setVt p.2 V))
        (svd_qr C uplo wu false st) := by
  rw [svd_qr, svd_qr]
  simp only [show (setVt st V).d = st.d from rfl]
  by_cases hn : st.d.length = 0
  · rw [if_pos hn, if_pos hn]
    rfl
  · rw [if_neg hn, if_neg hn]
    simp only [Option.bind_eq_bind]
    rw [normStep_mapVt]
    rcases hns : normStep C uplo wu st with _ | st1
    · simp
    simp only [Option.map_some', Option.some_bind]
    rw [mainLoop_mapVt]
    rcases hml : mainLoop C wu false (30 * st.d.length) st1 0 st.d.length
      with _ | out
    · simp
    simp only [Option.map_some', Option.some_bind]
    rcases out with cs | st2
    · simp
    · simp only
      rw [postProcess_mapVt]
      simp

/-- Unfolding `svd_qr` on the budget-exhaustion exit of the main loop: the
current `istop` is returned as the status code and the buffers are returned
as they are, with no post-processing. -/
theorem svd_qr_of_inl (C : Collab) (uplo : Uplo) (wu wv : Bool) (st st1 : St)
    (code : ℕ) (stc : St) (hn : st.d.length ≠ 0)
    (hns : normStep C uplo wu st = some st1)
    (hml : mainLoop C wu wv (30 * st.d.length) st1 0 st.d.length =
      some (.inl (code, stc))) :
    svd_qr C uplo wu wv st = some (code, stc) := by
  rw [svd_qr, if_neg hn]
  simp only [Option.bind_eq_bind]
  rw [hns]
  simp only [Option.some_bind]
  rw [hml]
  rfl

/-- Unfolding `svd_qr` on the convergence exit of the main loop: the status
code is `0` and the final state is the post-processed loop state. -/
theorem svd_qr_of_inr (C : Collab) (uplo : Uplo) (wu wv : Bool) (st st1 : St)
    (stc : St) (hn : st.d.length ≠ 0)
    (hns : normStep C uplo wu st = some st1)
    (hml : mainLoop C wu wv (30 * st.d.length) st1 0 st.d.length =
      some (.inr stc)) :
    svd_qr C uplo wu wv st = some (0, postProcess wu wv stc) := by
  rw [svd_qr, if_neg hn]
  simp only [Option.bind_eq_bind]
  rw [hns]
  simp only [Option.some_bind]
  rw [hml]
  rfl

/-- A nonzero status code can only be produced by the budget-exhaustion exit
of the main loop, and it is the `istop` boundary at that moment. -/
theorem svd_qr_pos_inv (C : Collab) (uplo : Uplo) (wu wv : Bool) (st : St)
    (code : ℕ) (st' : St)
    (h : svd_qr C uplo wu wv st = some (code, st')) (hpos : 0 < code) :
    ∃ st1, normStep C uplo wu st = some st1 ∧
      mainLoop C wu wv (30 * st.d.length) st1 0 st.d.length =
        some (.inl (code, st')) := by
  rw [svd_qr] at h
  by_cases hn : st.d.length = 0
  · rw [if_pos hn] at h
    simp only [Option.some.injEq, Prod.mk.injEq] at h
    omega
  · rw [if_neg hn] at h
    simp only [Option.bind_eq_bind] at h
    rcases hns : normStep C uplo wu st with _ | st1
    · rw [hns] at h; simp at h
    rw [hns] at h
    simp only [Option.some_bind] at h
    rcases hml : mainLoop C wu wv (30 * st.d.length) st1 0 st.d.length
      with _ | out
    · rw [hml] at h; simp at h
    rw [hml] at h
    rcases out with cs | stc
    · obtain ⟨c1, c2⟩ := cs
      simp only [Option.some_bind, Option.some.injEq, Prod.mk.injEq] at h
      obtain ⟨rfl, rfl⟩ := h
      exact ⟨st1, rfl, hml⟩
    · simp only [Option.some_bind, Option.some.injEq, Prod.mk.injEq] at h
      omega

/-- Setting an entry to the value it already holds leaves the list
unchanged. -/
theorem set_getElem?_self {l : List ℚ} {j : ℕ} {v : ℚ}
    (h : l[j]? = some v) : l.set j v = l := by
  apply List.ext_getElem?
  intro k
  by_cases hk : j = k
  · subst hk
    rw [List.getElem?_set_self (List.getElem?_eq_some.mp h).1, h]
  · rw [List.getElem?_set_ne hk]

/-- When the whole off-diagonal is zero and the trailing scan entry exists,
the deflation scan fires at its very first index `istop - 1` and splits the
block immediately. -/
theorem deflScan_zeroE (C : Collab) (st : St) (k : ℕ)
    (heps : 0 ≤ C.eps) (he : ∀ x ∈ st.e, x = 0)
    (h2 : 2 ≤ k) (hk : k ≤ st.e.length + 1)
    (hd : st.e.length + 1 = st.d.length) :
    deflScan (10 * C.eps) st.d st.e 0 k = some (st.e, k - 1) := by
  rw [deflScan]
  have hm : k - 1 - 0 = (k - 2) + 1 := by omega
  rw [hm, deflScanAux]
  have hke : k - 2 < st.e.length := by omega
  have hkd : k - 1 < st.d.length := by omega
  have he2 : st.e[0 + (k - 2) + 1 - 1]? = some 0 := by
    have : 0 + (k - 2) + 1 - 1 = k - 2 := by omega
    rw [this, List.getElem?_eq_getElem hke]
    exact congrArg some (he _ (List.getElem_mem hke))
  rw [he2]
  have hd2 : 0 + (k - 2) + 1 = k - 1 := by omega
  rw [hd2, List.getElem?_eq_getElem hkd]
  simp only [Option.bind_eq_bind, Option.some_bind]
  rw [if_pos (by
    rw [abs_zero]
    exact mul_nonneg (mul_nonneg (by norm_num) heps) (abs_nonneg _))]
  have hset : st.e.set (k - 1 - 1) 0 = st.e := by
    have hi : k - 1 - 1 = k - 2 := by omega
    rw [hi]
    apply set_getElem?_self
    rw [List.getElem?_eq_getElem hke]
    exact congrArg some (he _ (List.getElem_mem hke))
  rw [hset]

/-- With an all-zero off-diagonal the main loop only splits: it deflates one
singular value per iteration and exits through the convergence `break` with
the state untouched. -/
theorem mainLoop_zeroE (C : Collab) (wu wv : Bool) (st : St)
    (heps : 0 ≤ C.eps) (he : ∀ x ∈ st.e, x = 0)
    (hd : st.e.length + 1 = st.d.length) :
    ∀ (k fuel : ℕ), k ≤ st.d.length → k < fuel →
      mainLoop C wu wv fuel st 0 k = some (.inr st) := by
  intro k
  induction k with
  | zero =>
    intro fuel _ hf
    obtain ⟨f, rfl⟩ : ∃ f, fuel = f + 1 := ⟨fuel - 1, by omega⟩
    rw [mainLoop, if_pos (by omega)]
  | succ k ih =>
    intro fuel hk hf
    obtain ⟨f, rfl⟩ : ∃ f, fuel = f + 1 := ⟨fuel - 1, by omega⟩
    by_cases hk1 : k + 1 ≤ 1
    · rw [mainLoop, if_pos hk1]
    · rw [mainLoop, if_neg hk1]
      have hscan := deflScan_zeroE C st (k + 1) heps he (by omega)
        (by omega) hd
      rw [loopStep]
      simp only [Option.bind_eq_bind]
      rw [hscan]
      simp only [Option.some_bind]
      simp only [if_true]
      simp only [Option.some_bind]
      have : ({ st with e := st.e } : St) = st := rfl
      rw [this]
      have hk1' : k + 1 - 1 = k := by omega
      rw [hk1']
      exact ih f (by omega) (by omega)

/-- The lower-to-upper normaliser body preserves the lengths of `d` and `e`. -/
theorem normAux_lengths (C : Collab) (wu : Bool) :
    ∀ (fuel i : ℕ) (st st' : St), normAux C wu fuel i st = some st' →
      st'.d.length = st.d.length ∧ st'.e.length = st.e.length := by
  intro fuel
  induction fuel with
  | zero =>
    intro i st st' h
    simp only [normAux, Option.some.injEq] at h
    subst h
    exact ⟨rfl, rfl⟩
  | succ fuel ih =>
    intro i st st' h
    rw [normAux] at h
    rcases hdi : st.d[i]? with _ | di
    · rw [hdi] at h; simp at h
    rw [hdi] at h
    rcases hei : st.e[i]? with _ | ei
    · rw [hei] at h; simp at h
    rw [hei] at h
    rcases hdi1 : st.d[i + 1]? with _ | di1
    · rw [hdi1] at h; simp at h
    rw [hdi1] at h
    simp only [Option.bind_eq_bind, Option.some_bind] at h
    rcases hu : rotIf wu ((⟨(st.d.set i (C.lartg di ei).2.2).set (i + 1)
        ((C.lartg di ei).1 * di1), st.e.set i ((C.lartg di ei).2.1 * di1),
        st.u, st.vt⟩ : St)).u i (i + 1) (C.lartg di ei).1
        (C.lartg di ei).2.1 with _ | u1
    · rw [hu] at h; simp at h
    rw [hu] at h
    simp only [Option.some_bind] at h
    have := ih (i + 1) _ st' h
    simpa using this

/-- The conditional normalisation step preserves the lengths of `d` and `e`. -/
theorem normStep_lengths (C : Collab) (uplo : Uplo) (wu : Bool)
    (st st' : St) (h : normStep C uplo wu st = some st') :
    st'.d.length = st.d.length ∧ st'.e.length = st.e.length := by
  rw [normStep] at h
  by_cases hup : uplo = Uplo.lower
  · rw [if_pos hup] at h
    exact normAux_lengths C wu (st.d.length - 1) 0 st st' h
  · rw [if_neg hup] at h
    simp only [Option.some.injEq] at h
    subst h
    exact ⟨rfl, rfl⟩

/-!
## Claim theorems
-/

/-- C2: for every input with `n ≥ 3` whose first deflation scan (after the
optional lower-to-upper normalisation) finds no negligible off-diagonal, the
shift computation reads `e[n-1]` and `d[n]`, past the lengths of `e` (`n-1`)
and `d` (`n`); in this total embedding, where indexing returns `Option`, the
run of `svd_qr` is `none`. -/
theorem claim_C2 (C : Collab) (uplo : Uplo) (wu wv : Bool) (st st1 : St)
    (hwf : st.e.length + 1 = st.d.length) (h3 : 3 ≤ st.d.length)
    (hns : normStep C uplo wu st = some st1)
    (hscan : deflScan (10 * C.eps) st1.d st1.e 0 st.d.length =
      some (st1.e, 0)) :
    svd_qr C uplo wu wv st = none := by
  obtain ⟨hld, hle⟩ := normStep_lengths C uplo wu st st1 hns
  rw [svd_qr, if_neg (by omega)]
  simp only [Option.bind_eq_bind]
  rw [hns]
  simp only [Option.some_bind]
  obtain ⟨f, hf⟩ : ∃ f, 30 * st.d.length = f + 1 := ⟨30 * st.d.length - 1, by omega⟩
  rw [hf, mainLoop, if_neg (by omega)]
  rw [loopStep]
  simp only [Option.bind_eq_bind]
  rw [hscan]
  simp only [Option.some_bind]
  rw [if_neg (by omega), if_neg (by omega)]
  have hdm1 : st1.d[st.d.length - 1]? = some (st1.d.getD (st.d.length - 1) 0) := by
    rw [List.getD_eq_getElem?_getD,
      List.getElem?_eq_getElem (by omega : st.d.length - 1 < st1.d.length)]
    rfl
  have hem1 : st1.e[st.d.length - 1]? = none :=
    List.getElem?_eq_none_iff.mpr (by omega)
  rw [show ({ st1 with e := st1.e } : St) = st1 from rfl] at *
  rw [hdm1]
  simp only [Option.some_bind]
  rw [hem1]
  simp only [Option.none_bind]

/-- C5: because the iteration-budget check at the top of the main loop
precedes the convergence check, when the loop exits through the budget check
with `istop ≤ 1` (the block fully deflated right in the last budgeted pass),
`svd_qr` returns the current `istop` — `1`, or `0`, the success code — with
the buffers exactly as the loop left them: no sign normalisation and no
descending sort are applied. -/
theorem claim_C5 (C : Collab) (uplo : Uplo) (wu wv : Bool) (st st1 : St)
    (code : ℕ) (st' : St) (hn : 0 < st.d.length)
    (hns : normStep C uplo wu st = some st1)
    (hml : mainLoop C wu wv (30 * st.d.length) st1 0 st.d.length =
      some (.inl (code, st')))
    (_hconv : code ≤ 1) :
    svd_qr C uplo wu wv st = some (code, st') :=
  svd_qr_of_inl C uplo wu wv st st1 code st' (by omega) hns hml

/-- C4 (amended): a positive status code arises only from the
iteration-budget return, and equals the `istop` boundary at that moment;
conversely, whenever the budget expires while `istop ≥ 2` (the block has not
fully deflated), `svd_qr` stops with that positive `istop`.  (As stated the
claim is falsified by the corner in which deflation completes during the
final budgeted pass with `istop = 1`: the routine then returns the positive
value `1` even though the block has fully deflated; see the counterexample.) -/
theorem claim_C4 :
    (∀ (C : Collab) (uplo : Uplo) (wu wv : Bool) (st : St) (code : ℕ)
      (st' : St), svd_qr C uplo wu wv st = some (code, st') → 0 < code →
      ∃ st1, normStep C uplo wu st = some st1 ∧
        mainLoop C wu wv (30 * st.d.length) st1 0 st.d.length =
          some (.inl (code, st'))) ∧
    (∀ (C : Collab) (uplo : Uplo) (wu wv : Bool) (st st1 : St) (code : ℕ)
      (st' : St), 0 < st.d.length →
      normStep C uplo wu st = some st1 →
      mainLoop C wu wv (30 * st.d.length) st1 0 st.d.length =
        some (.inl (code, st')) →
      2 ≤ code →
      svd_qr C uplo wu wv st = some (code, st') ∧ 0 < code) := by
  constructor
  · intro C uplo wu wv st code st' h hpos
    exact svd_qr_pos_inv C uplo wu wv st code st' h hpos
  · intro C uplo wu wv st st1 code st' hn hns hml hcode
    exact ⟨svd_qr_of_inl C uplo wu wv st st1 code st' (by omega) hns hml,
      by omega⟩

/-- C3 (amended): when `svd_qr` returns `0` through the convergence exit of
the main loop (the `break` at `istop ≤ 1`, not the iteration-budget check),
the final diagonal is sorted in decreasing order with every entry
nonnegative, and every entry of `e` is zero. -/
theorem claim_C3 (C : Collab) (uplo : Uplo) (wu wv : Bool) (st st1 stc : St)
    (hwf : st.e.length + 1 = st.d.length)
    (hns : normStep C uplo wu st = some st1)
    (hml : mainLoop C wu wv (30 * st.d.length) st1 0 st.d.length =
      some (.inr stc)) :
    svd_qr C uplo wu wv st = some (0, postProcess wu wv stc) ∧
    sortedDesc (postProcess wu wv stc).d ∧
    (∀ x ∈ (postProcess wu wv stc).d, 0 ≤ x) ∧
    (∀ x ∈ (postProcess wu wv stc).e, x = 0) := by
  obtain ⟨hld, hle⟩ := normStep_lengths C uplo wu st st1 hns
  have hrun := svd_qr_of_inr C uplo wu wv st st1 stc (by omega) hns hml
  have htz : tailZero st1.e st.d.length := by
    intro j hj
    exact List.getD_eq_default _ _ (by omega)
  have hbz : boundZero st1.e 0 := fun h => absurd h (by omega)
  have hinr := mainLoop_inr C wu wv (30 * st.d.length) st1 0 st.d.length stc
    hml (by omega) htz hbz
  obtain ⟨hpe, hpl, hpp, hps, hpn⟩ := postProcess_spec wu wv stc
  refine ⟨hrun, hps, hpn, ?_⟩
  intro x hx
  rw [hpe] at hx
  exact hinr.2.2 x hx

/-- C6: the deflation scan runs `i` from `istop-1` down to `istart+1`; if it
returns without firing, the buffers are untouched and every scanned index
was in bounds with `|e[i-1]| > tol·|d[i]|`; if it fires, it does so at the
first triggering index of that order, zeroes exactly `e[i-1]` there (no
other off-diagonal is modified), and returns that index as the new
`istart`. -/
theorem claim_C6 (tol : ℚ) (d e : List ℚ) (istart istop : ℕ)
    (e' : List ℚ) (istart' : ℕ) (hlt : istart < istop)
    (h : deflScan tol d e istart istop = some (e', istart')) :
    (e' = e ∧ istart' = istart ∧
      ∀ i, istart < i → i < istop → scanBounds d e i ∧ ¬ trig tol d e i) ∨
    (istart < istart' ∧ istart' < istop ∧ scanBounds d e istart' ∧
      trig tol d e istart' ∧ e' = e.set (istart' - 1) 0 ∧
      ∀ i, istart' < i → i < istop → scanBounds d e i ∧ ¬ trig tol d e i) :=
  deflScan_spec tol d e istart istop e' istart' h hlt

/-- C7: the block-boundary invariant `e[istart-1] = 0` is established or
preserved by the deflation scan, and both QR sweeps write only off-diagonal
entries with index in `[istart, istop-1)` — every entry below `istart` or at
index `≥ istop-1` is unchanged — so the sweeps preserve the invariant. -/
theorem claim_C7 :
    (∀ (tol : ℚ) (d e : List ℚ) (istart istop : ℕ) (e' : List ℚ)
      (istart' : ℕ), istart < istop →
      deflScan tol d e istart istop = some (e', istart') →
      boundZero e istart → boundZero e' istart') ∧
    (∀ (C : Collab) (wu wv : Bool) (st : St) (istart istop : ℕ) (st' : St),
      istart + 1 < istop →
      zeroSweep C wu wv st istart istop = some st' →
      (∀ j, (j < istart ∨ istop - 1 ≤ j) → st'.e[j]? = st.e[j]?) ∧
      (boundZero st.e istart → boundZero st'.e istart)) ∧
    (∀ (C : Collab) (wu wv : Bool) (shift : ℚ) (st : St) (istart istop : ℕ)
      (st' : St), istart + 1 < istop →
      nonzeroSweep C wu wv shift st istart istop = some st' →
      (∀ j, (j < istart ∨ istop - 1 ≤ j) → st'.e[j]? = st.e[j]?) ∧
      (boundZero st.e istart → boundZero st'.e istart)) := by
  refine ⟨?_, ?_, ?_⟩
  · intro tol d e istart istop e' istart' hlt h hbz
    rcases deflScan_spec tol d e istart istop e' istart' h hlt with
      ⟨rfl, rfl, -⟩ | ⟨-, -, hb, -, rfl, -⟩
    · exact hbz
    · intro _
      exact getD_set_self hb.1
  · intro C wu wv st istart istop st' hlt h
    have hfr := zeroSweep_frame C wu wv st istart istop st' h hlt
    refine ⟨hfr.2.2, fun hbz hpos => ?_⟩
    rw [getD_congr_of_getElem? (hfr.2.2 (istart - 1) (Or.inl (by omega)))]
    exact hbz hpos
  · intro C wu wv shift st istart istop st' hlt h
    have hfr := nonzeroSweep_frame C wu wv shift st istart istop st' h hlt
    refine ⟨hfr.2.2, fun hbz hpos => ?_⟩
    rw [getD_congr_of_getElem? (hfr.2.2 (istart - 1) (Or.inl (by omega)))]
    exact hbz hpos

/-- C8: when `want_u` is false, `U` is neither read nor written — the run on
a state with `u` replaced by any matrix is the run on the original state
with that matrix carried through untouched, so every other output is
independent of `U` and `U` itself is returned unchanged; symmetrically for
`want_vt` and `Vt`. -/
theorem claim_C8 :
    (∀ (C : Collab) (uplo : Uplo) (wv : Bool) (st : St)
      (U : List (List ℚ)),
      svd_qr C uplo false wv (setU st U) =
        Option.map (fun p : ℕ × St => (p.1, setU p.2 U))
          (svd_qr C uplo false wv st)) ∧
    (∀ (C : Collab) (uplo : Uplo) (wu : Bool) (st : St)
      (V : List (List ℚ)),
      svd_qr C uplo wu false (setVt st V) =
        Option.map (fun p : ℕ × St => (p.1, setVt p.2 V))
          (svd_qr C uplo wu false st)) :=
  ⟨fun C uplo wv st U => svd_qr_mapU C uplo wv st U,
   fun C uplo wu st V => svd_qr_mapVt C uplo wu st V⟩

/-- C9: on an upper-bidiagonal input whose off-diagonal is entirely zero,
the main loop performs only splits and `svd_qr` returns `0` with the final
state equal to the post-processing of the untouched input state (so no
plane rotation is ever applied); the final diagonal is a permutation of the
absolute values of the input diagonal, sorted in decreasing order, and `e`
is returned as it came (all zero). -/
theorem claim_C9 (C : Collab) (wu wv : Bool) (st : St)
    (heps : 0 ≤ C.eps)
    (hwf : st.e.length + 1 = st.d.length)
    (he : ∀ x ∈ st.e, x = 0) :
    svd_qr C Uplo.upper wu wv st = some (0, postProcess wu wv st) ∧
    sortedDesc (postProcess wu wv st).d ∧
    (postProcess wu wv st).d.Perm (st.d.map (fun x => |x|)) ∧
    (postProcess wu wv st).e = st.e := by
  have hns : normStep C Uplo.upper wu st = some st := by
    rw [normStep, if_neg (by simp)]
  have hml := mainLoop_zeroE C wu wv st heps he hwf st.d.length
    (30 * st.d.length) le_rfl (by omega)
  have hrun := svd_qr_of_inr C Uplo.upper wu wv st st st (by omega) hns hml
  obtain ⟨hpe, hpl, hpp, hps, hpn⟩ := postProcess_spec wu wv st
  exact ⟨hrun, hps, hpp, hpe⟩

/-- C10: for `n = 0` (empty `d`), `svd_qr` returns `0` immediately with the
whole state unchanged, for any `uplo`, `want_u` and `want_vt`. -/
theorem claim_C10 (C : Collab) (uplo : Uplo) (wu wv : Bool) (st : St)
    (hn : st.d.length = 0) :
    svd_qr C uplo wu wv st = some (0, st) := by
  rw [svd_qr, if_pos hn]

set_option maxRecDepth 400000 in
/-- C1 (code bug): the shift is computed by
`singularvalues22(d[istop-1], e[istop-1], d[istop], …)` (source line 203),
not from the trailing 2×2 block `(d[istop-2], e[istop-2], d[istop-1])` of
the active block that the spec prescribes.  On the failing input `n = 3`,
`d = [1,1,1]`, `e = [1,1]` (no deflation fires), `istop = n = 3`, so the
code reads `e[2]` and `d[3]`, both past the ends of the arrays, and the run
of the total embedding is `none`; the indices the spec prescribes, `e[1]`
and `d[2]`, do exist. -/
theorem claim_C1 :
    svd_qr idC Uplo.upper false false ⟨[1, 1, 1], [1, 1], [], []⟩ = none ∧
    ([1, 1] : List ℚ)[3 - 1]? = none ∧ ([1, 1, 1] : List ℚ)[3]? = none ∧
    ([1, 1] : List ℚ)[3 - 2]? = some 1 ∧
    ([1, 1, 1] : List ℚ)[3 - 1]? = some 1 := by
  refine ⟨?_, by decide, by decide, by decide, by decide⟩
  with_unfolding_all decide

set_option maxRecDepth 400000 in
/-- C2 witness: the concrete input `n = 4`, `d = [1,1,1,1]`, `e = [1,1,1]`
satisfies the hypotheses of the claim-C2 theorem, and its run is `none`. -/
theorem claim_C2_witness :
    svd_qr idC Uplo.upper false false (St.mk [1, 1, 1, 1] [1, 1, 1] [] []) =
      none :=
  claim_C2 idC Uplo.upper false false (St.mk [1, 1, 1, 1] [1, 1, 1] [] [])
    (St.mk [1, 1, 1, 1] [1, 1, 1] [] []) (by decide) (by decide) rfl
    (by with_unfolding_all decide)

set_option maxRecDepth 400000 in
/-- C3 counterexample: a run that returns the success code `0` through the
iteration-budget check (deflation completes exactly in the final budgeted
pass) with a negative entry left in `d`: under the collaborator instance
`decC`, the input `d = [0,0,0,1,-3]`, `e = [157,147,5,0]` returns
`(0, d = [1,1,1,1,-3], e = [0,0,0,0])` — the claim `d[n-1] ≥ 0` fails at
the returned `d[4] = -3 < 0` (`d` is not post-processed at all). -/
theorem claim_C3_counterexample :
    svd_qr decC Uplo.upper false false
        ⟨[0, 0, 0, 1, -3], [157, 147, 5, 0], [], []⟩ =
      some (0, ⟨[1, 1, 1, 1, -3], [0, 0, 0, 0], [], []⟩) ∧
    (St.mk [1, 1, 1, 1, -3] [0, 0, 0, 0] [] []).d.getD 4 0 < 0 := by
  constructor
  · with_unfolding_all decide
  · with_unfolding_all decide

set_option maxRecDepth 400000 in
/-- C3 witness (for the amended claim): a `n = 1` run through the
convergence exit, post-processed and sorted. -/
theorem claim_C3_witness :
    svd_qr idC Uplo.upper false false (St.mk [-2] [] [] []) =
      some (0, postProcess false false (St.mk [-2] [] [] [])) ∧
    sortedDesc (postProcess false false (St.mk [-2] [] [] [])).d ∧
    (∀ x ∈ (postProcess false false (St.mk [-2] [] [] [])).d, 0 ≤ x) ∧
    (∀ x ∈ (postProcess false false (St.mk [-2] [] [] [])).e, x = 0) :=
  claim_C3 idC Uplo.upper false false (St.mk [-2] [] [] [])
    (St.mk [-2] [] [] []) (St.mk [-2] [] [] []) (by decide) rfl
    (by with_unfolding_all decide)

set_option maxRecDepth 400000 in
/-- C4 counterexample: a positive status code raised although the active
block has fully deflated: under `decC` the input `d = [0,0,1,1]`,
`e = [118,5,0]` deflates to `istop = 1` exactly in the final budgeted pass
and the routine returns the positive value `1` while every entry of the
returned `e` is zero. -/
theorem claim_C4_counterexample :
    svd_qr decC Uplo.upper false false ⟨[0, 0, 1, 1], [118, 5, 0], [], []⟩ =
      some (1, ⟨[-118, 1, 1, 1], [0, 0, 0], [], []⟩) ∧
    (∀ x ∈ (St.mk [-118, 1, 1, 1] [0, 0, 0] [] []).e, x = 0) ∧ 0 < 1 := by
  refine ⟨?_, by decide, by decide⟩
  with_unfolding_all decide

set_option maxRecDepth 400000 in
/-- C4 witness (for the amended claim): a run that stalls at `istop = 3`
until the budget expires returns `3`, and the positive return is traced back
to the budget exit of the main loop. -/
theorem claim_C4_witness :
    ∃ st1, normStep idC Uplo.upper false
        (St.mk [1, 1, 1, 1] [1, 1, 0] [] []) = some st1 ∧
      mainLoop idC false false
          (30 * (St.mk [1, 1, 1, 1] [1, 1, 0] [] []).d.length) st1 0
          (St.mk [1, 1, 1, 1] [1, 1, 0] [] []).d.length =
        some (.inl (3, St.mk [1, 1, 1, 1] [1, 1, 0] [] [])) :=
  claim_C4.1 idC Uplo.upper false false
    (St.mk [1, 1, 1, 1] [1, 1, 0] [] []) 3
    (St.mk [1, 1, 1, 1] [1, 1, 0] [] [])
    (by with_unfolding_all decide) (by decide)

set_option maxRecDepth 400000 in
/-- C5 witness: under `decC` the input `d = [0,0,1,1]`, `e = [118,5,0]`
deflates to `istop = 1` exactly when `iter` reaches `30·n = 120`; the
routine returns `(1, d = [-118,1,1,1], e = [0,0,0])` — the loop state,
unsorted and with a negative entry, confirming that no post-processing ran. -/
theorem claim_C5_witness :
    svd_qr decC Uplo.upper false false (St.mk [0, 0, 1, 1] [118, 5, 0] [] []) =
      some (1, St.mk [-118, 1, 1, 1] [0, 0, 0] [] []) :=
  claim_C5 decC Uplo.upper false false
    (St.mk [0, 0, 1, 1] [118, 5, 0] [] [])
    (St.mk [0, 0, 1, 1] [118, 5, 0] [] []) 1
    (St.mk [-118, 1, 1, 1] [0, 0, 0] [] []) (by decide) rfl
    (by with_unfolding_all decide) (by decide)

/-- C6 witness: the scan on `tol = 1`, `d = [1,5]`, `e = [1]` over the block
`[0, 2)` fires at `i = 1` and zeroes `e[0]`. -/
theorem claim_C6_witness :
    (([0] : List ℚ) = [1] ∧ (1 : ℕ) = 0 ∧
      ∀ i, 0 < i → i < 2 →
        scanBounds [(1 : ℚ), 5] [1] i ∧ ¬ trig 1 [(1 : ℚ), 5] [1] i) ∨
    ((0 : ℕ) < 1 ∧ (1 : ℕ) < 2 ∧ scanBounds [(1 : ℚ), 5] [1] 1 ∧
      trig 1 [(1 : ℚ), 5] [1] 1 ∧
      ([0] : List ℚ) = ([1] : List ℚ).set (1 - 1) 0 ∧
      ∀ i, 1 < i → i < 2 →
        scanBounds [(1 : ℚ), 5] [1] i ∧ ¬ trig 1 [(1 : ℚ), 5] [1] i) :=
  claim_C6 1 [1, 5] [1] 0 2 [0] 1 (by omega)
    (by with_unfolding_all decide)

/-- C7 witness: the scan on `tol = 1`, `d = [1,2]`, `e = [1]` zeroes `e[0]`
and returns `istart = 1`, re-establishing the boundary invariant. -/
theorem claim_C7_witness : boundZero ([0] : List ℚ) 1 :=
  claim_C7.1 1 [1, 2] [1] 0 2 [0] 1 (by omega)
    (by with_unfolding_all decide) (fun h => absurd h (by omega))

set_option maxRecDepth 400000 in
/-- C9 witness: the diagonal-only input `d = [3, -5]`, `e = [0]` converges
immediately; the result is the post-processed input with
`d = [5, 3]` (the absolute values, sorted) and `e` untouched. -/
theorem claim_C9_witness :
    svd_qr idC Uplo.upper false false (St.mk [3, -5] [0] [] []) =
      some (0, postProcess false false (St.mk [3, -5] [0] [] [])) ∧
    sortedDesc (postProcess false false (St.mk [3, -5] [0] [] [])).d ∧
    (postProcess false false (St.mk [3, -5] [0] [] [])).d.Perm
      ((St.mk [3, -5] [0] [] []).d.map (fun x => |x|)) ∧
    (postProcess false false (St.mk [3, -5] [0] [] [])).e =
      (St.mk [3, -5] [0] [] []).e :=
  claim_C9 idC false false (St.mk [3, -5] [0] [] [])
    (by with_unfolding_all decide) (by decide) (by decide)

/-- C10 witness: the empty input returns `0` with nothing mutated, even with
`uplo = lower` and both vector flags set. -/
theorem claim_C10_witness :
    svd_qr idC Uplo.lower true true (St.mk [] [] [[1]] [[2]]) =
      some (0, St.mk [] [] [[1]] [[2]]) :=
  claim_C10 idC Uplo.lower true true (St.mk [] [] [[1]] [[2]]) rfl

end TlapackSvdQr
